import Mathlib

/-!
# Verification of the story-customization core of `thread-me-to`

Shallow embedding of `src/index.ts`: the pronoun rewriter
(`rewritePronouns`), the class-injection pass (`addStoryClasses`), the
manual markdown renderer (`markdownToHTMLManual`) and the request handler
(`handleStoryCustomization`).

JavaScript strings are modelled as `List Char` (wrapped in `String` at the
interfaces).  Regex constructs are embedded by their semantics on the
patterns the program actually builds:

* `\b...\b` whole-word patterns: every pattern the code constructs
  (pronoun words, the protagonist name, which the design notes require to
  be letters-only and word-safe) consists of word characters, so `\b`
  means "the neighbouring character is not a `\w` character".
* the `i` flag: ASCII case folding (all patterns are ASCII).
* `g` flag string replacement: left-to-right, non-overlapping, the
  replacement is not rescanned.

All recursive scanners take an explicit fuel argument (`s.length` at the
wrapper) so that every definition is structurally recursive and reduces
inside the kernel.
-/

/-! ## Character helpers (ASCII semantics of the JS operations used) -/

/-- JS `\w` word character: `[A-Za-z0-9_]`. -/
def isWordChar (c : Char) : Bool :=
  (65 ≤ c.toNat && c.toNat ≤ 90) || (97 ≤ c.toNat && c.toNat ≤ 122) ||
    (48 ≤ c.toNat && c.toNat ≤ 57) || (c.toNat == 95)

/-- Case-folded code point, modelling the regex `i` flag on ASCII:
uppercase letters fold onto their lowercase counterparts. -/
def foldN (c : Char) : Nat :=
  if 65 ≤ c.toNat ∧ c.toNat ≤ 90 then c.toNat + 32 else c.toNat

/-- One-character match: exact for a case-sensitive pattern, folded for `i`. -/
def charMatches (ci : Bool) (a b : Char) : Bool :=
  if ci then foldN a == foldN b else a == b

/-- JS `String.prototype.toLowerCase` on ASCII. -/
def lowerChar (c : Char) : Char :=
  if 65 ≤ c.toNat ∧ c.toNat ≤ 90 then Char.ofNat (c.toNat + 32) else c

/-- JS `String.prototype.toUpperCase` on ASCII (used on one character). -/
def upperChar (c : Char) : Char :=
  if 97 ≤ c.toNat ∧ c.toNat ≤ 122 then Char.ofNat (c.toNat - 32) else c

/-- JS `match[0] === match[0].toUpperCase()` for the ASCII characters the
pronoun patterns can match: true iff the character is not a lowercase
ASCII letter. -/
def jsHeadUpper (c : Char) : Bool :=
  if 97 ≤ c.toNat ∧ c.toNat ≤ 122 then false else true

/-- JS `\s` (and the character class trimmed by `String.prototype.trim`),
restricted to ASCII. -/
def jsIsSpace (c : Char) : Bool :=
  (c == ' ') || (c == '\t') || (c == '\n') || (c == '\r') ||
    (c.toNat == 11) || (c.toNat == 12)

/-- Embeds `const capitalize = (str) => str.charAt(0).toUpperCase() + str.slice(1)`. -/
def capitalizeJS : List Char → List Char
  | [] => []
  | c :: r => upperChar c :: r

/-- The case-preserving replacement closure used for each pronoun rule:
`(match) => (match[0] === match[0].toUpperCase() ? capitalize(w) : w)`. -/
def caseRep (target : List Char) (m : List Char) : List Char :=
  match m with
  | [] => target
  | c :: _ => if jsHeadUpper c then capitalizeJS target else target

/-! ## Whole-word regex replacement (`text.replace(/\bp\b/g…, f)`) -/

/-- Does `p` match (case-insensitively if `ci`) a prefix of `s`? -/
def matchPre (ci : Bool) : List Char → List Char → Bool
  | [], _ => true
  | _ :: _, [] => false
  | a :: p', b :: s' => charMatches ci a b && matchPre ci p' s'

/-- The `\b` condition after the match: end of input or a non-word char. -/
def wordEndOk : List Char → Bool
  | [] => true
  | c :: _ => !isWordChar c

/-- Fueled scanner for `String.prototype.replace` with a `\bp\b` pattern
(all of whose characters are word characters): `prevW` records whether the
previous character was a word character (so whether `\b` fails here). -/
def scanGo (ci : Bool) (p : List Char) (f : List Char → List Char) :
    Nat → Bool → List Char → List Char
  | 0, _, s => s
  | _ + 1, _, [] => []
  | fuel + 1, prevW, c :: rest =>
    if !prevW && matchPre ci p (c :: rest) &&
        wordEndOk (List.drop p.length (c :: rest)) then
      f (List.take p.length (c :: rest)) ++
        scanGo ci p f fuel true (List.drop p.length (c :: rest))
    else
      c :: scanGo ci p f fuel (isWordChar c) rest

/-- Embeds `text.replace(new RegExp("\\b" ++ p ++ "\\b", flags), f)` for a
word-character pattern `p`. -/
def replaceWord (ci : Bool) (p : List Char) (f : List Char → List Char)
    (s : List Char) : List Char :=
  if p.isEmpty then s else scanGo ci p f s.length false s

/-! ## The pronoun table and rewriter (`PRONOUNS`, `rewritePronouns`) -/

inductive PronounKey where
  | he | she | they
deriving DecidableEq, Repr

/-- One pronoun family record of the `PRONOUNS` table. -/
structure PronSet where
  subject : String
  object : String
  possessiveAdj : String
  possessive : String
  reflexive : String

def PRONOUNS : PronounKey → PronSet
  | .she => ⟨"she", "her", "her", "hers", "herself"⟩
  | .he => ⟨"he", "him", "his", "his", "himself"⟩
  | .they => ⟨"they", "them", "their", "theirs", "themselves"⟩

/-- The seven `[pattern, replacement]` pairs built by `rewritePronouns`,
generalized over the reference (original) family.  In the source the
reference family is the literal `PRONOUNS['he']`. -/
def replacementList (origP newP : PronSet) (o n : List Char) :
    List (Bool × List Char × (List Char → List Char)) :=
  [ (false, o, fun _ => n),
    (false, o.map lowerChar, fun _ => n.map lowerChar),
    (true, origP.subject.data, caseRep newP.subject.data),
    (true, origP.object.data, caseRep newP.object.data),
    (true, origP.possessiveAdj.data, caseRep newP.possessiveAdj.data),
    (true, origP.possessive.data, caseRep newP.possessive.data),
    (true, origP.reflexive.data, caseRep newP.reflexive.data) ]

/-- The loop `for (const [pattern, replacement] of replacements) result =
result.replace(pattern, replacement)`. -/
def runReplacements (reps : List (Bool × List Char × (List Char → List Char)))
    (text : List Char) : List Char :=
  reps.foldl (fun res r => replaceWord r.1 r.2.1 r.2.2 res) text

/-- The function `rewritePronouns` on character lists.  The original family is the
hard-coded `PRONOUNS['he']`; `PRONOUNS[pronounKey] || PRONOUNS['he']` is
total because `PronounKey` is the closed key set. -/
def rewritePronounsL (text o n : List Char) (pronounKey : PronounKey) :
    List Char :=
  runReplacements (replacementList (PRONOUNS .he) (PRONOUNS pronounKey) o n) text

def rewritePronouns (text o n : String) (pronounKey : PronounKey) : String :=
  ⟨rewritePronounsL text.data o.data n.data pronounKey⟩

/-- Generalization of `rewritePronouns` in which the reference (matched)
family is a parameter instead of the hard-coded `PRONOUNS['he']`; used to
state that the source's choice is fixed and not derived per document. -/
def rewriteGen (origP : PronSet) (text o n : String) (pronounKey : PronounKey) :
    String :=
  ⟨runReplacements (replacementList origP (PRONOUNS pronounKey) o.data n.data) text.data⟩

/-- The seven replacement stages named individually (for stating the
order-of-substitution properties). -/
def nameStep1 (o n s : List Char) : List Char :=
  replaceWord false o (fun _ => n) s

def nameStep2 (o n s : List Char) : List Char :=
  replaceWord false (o.map lowerChar) (fun _ => n.map lowerChar) s

def stepSubject (k : PronounKey) (s : List Char) : List Char :=
  replaceWord true (PRONOUNS .he).subject.data (caseRep (PRONOUNS k).subject.data) s

def stepObject (k : PronounKey) (s : List Char) : List Char :=
  replaceWord true (PRONOUNS .he).object.data (caseRep (PRONOUNS k).object.data) s

def stepPossAdj (k : PronounKey) (s : List Char) : List Char :=
  replaceWord true (PRONOUNS .he).possessiveAdj.data
    (caseRep (PRONOUNS k).possessiveAdj.data) s

def stepPossessive (k : PronounKey) (s : List Char) : List Char :=
  replaceWord true (PRONOUNS .he).possessive.data
    (caseRep (PRONOUNS k).possessive.data) s

def stepReflexive (k : PronounKey) (s : List Char) : List Char :=
  replaceWord true (PRONOUNS .he).reflexive.data
    (caseRep (PRONOUNS k).reflexive.data) s

/-- Stages (3)–(7) of the rewriter: the pronoun substitutions. -/
def pronounStepsL (k : PronounKey) (s : List Char) : List Char :=
  stepReflexive k (stepPossessive k (stepPossAdj k (stepObject k (stepSubject k s))))

/-! ## Literal global replacement and `addStoryClasses` -/

/-- Fueled scanner for `html.replace(/lit/g, r)` where the pattern is a
literal string: left-to-right, non-overlapping, replacement not rescanned. -/
def replGo (p r : List Char) : Nat → List Char → List Char
  | 0, s => s
  | _ + 1, [] => []
  | fuel + 1, c :: rest =>
    if matchPre false p (c :: rest) then
      r ++ replGo p r fuel (List.drop p.length (c :: rest))
    else
      c :: replGo p r fuel rest

/-- Embeds `s.replace(/p/g, r)` for a literal, non-empty pattern `p`. -/
def replaceAll (p r s : List Char) : List Char :=
  if p.isEmpty then s else replGo p r s.length s

/-- The first seven chained replacements of `addStoryClasses`
(everything before the final `<img ` replacement), in source order. -/
def addStoryClasses7 (html : List Char) : List Char :=
  replaceAll "<blockquote>".data "<blockquote class=\"story-callout\">".data
    (replaceAll "<ol>".data "<ol class=\"numbered-list\">".data
      (replaceAll "<ul>".data "<ul class=\"bullet-list\">".data
        (replaceAll "<p>".data "<p class=\"story-text\">".data
          (replaceAll "<h3>".data "<h3 class=\"subsection-title\">".data
            (replaceAll "<h2>".data "<h2 class=\"section-title\">".data
              (replaceAll "<h1>".data "<h1 class=\"chapter-title\">".data
                html))))))

/-- The pass `addStoryClasses`: the chained literal replacements post-processing the
rendered HTML, in source order. -/
def addStoryClassesL (html : List Char) : List Char :=
  replaceAll "<img ".data "<img class=\"story-image\" ".data
    (addStoryClasses7 html)

def addStoryClasses (html : String) : String :=
  ⟨addStoryClassesL html.data⟩

/-! ## The manual markdown renderer (`markdownToHTMLManual`) -/

/-- Split on the literal character `'\n'` (JS `block.split('\n')`). -/
def splitOnNl : List Char → List (List Char)
  | [] => [[]]
  | c :: rest =>
    match splitOnNl rest, c with
    | ls, c =>
      if c = '\n' then [] :: ls
      else
        match ls with
        | [] => [[c]]
        | h :: t => (c :: h) :: t

/-- Rejoin lines with `'\n'`. -/
def joinNl : List (List Char) → List Char
  | [] => []
  | [l] => l
  | l :: ls => l ++ '\n' :: joinNl ls

/-- One header pass `.replace(/^#… (.*$)/gm, "<hN class=\"…\">$1</hN>")`:
a line starting with the marker is rewritten into the heading element. -/
def headerLine (marker : List Char) (pre post : List Char) (line : List Char) :
    List Char :=
  if matchPre false marker line then pre ++ List.drop marker.length line ++ post
  else line

def headerPass (marker pre post : List Char) (s : List Char) : List Char :=
  joinNl ((splitOnNl s).map (headerLine marker pre post))

/-- The three chained header replacements (`###` first, then `##`, then `#`). -/
def headersPass (s : List Char) : List Char :=
  headerPass "# ".data "<h1 class=\"chapter-title\">".data "</h1>".data
    (headerPass "## ".data "<h2 class=\"section-title\">".data "</h2>".data
      (headerPass "### ".data "<h3 class=\"subsection-title\">".data "</h3>".data s))

/-- After a literal `'\n'`, does `\s*\n` match (with backtracking)?  If the
maximal whitespace run that follows contains a `'\n'`, the separator
consumes through the last such `'\n'` and this returns the remainder. -/
def sepRest (rest : List Char) : Option (List Char) :=
  let run := rest.takeWhile jsIsSpace
  if run.contains '\n' then
    some ((run.reverse.takeWhile (fun c => !(c == '\n'))).reverse ++
      rest.dropWhile jsIsSpace)
  else none

/-- Fueled scanner for `html.split(/\n\s*\n/)`. -/
def splitBlocksGo : Nat → List Char → List Char → List (List Char)
  | 0, cur, s => [cur.reverse ++ s]
  | _ + 1, cur, [] => [cur.reverse]
  | fuel + 1, cur, c :: rest =>
    if c = '\n' then
      match sepRest rest with
      | some rem => cur.reverse :: splitBlocksGo fuel [] rem
      | none => splitBlocksGo fuel (c :: cur) rest
    else splitBlocksGo fuel (c :: cur) rest

def splitBlocks (s : List Char) : List (List Char) :=
  splitBlocksGo s.length [] s

/-- JS `String.prototype.trim` (ASCII whitespace). -/
def jsTrim (s : List Char) : List Char :=
  ((s.dropWhile jsIsSpace).reverse.dropWhile jsIsSpace).reverse

/-- Embeds `content.replace(/\n/g, '<br>')`. -/
def nlToBr (s : List Char) : List Char :=
  replaceAll ['\n'] "<br>".data s

/-- Fueled scanner for `block.replace(/^>\s*/gm, '')`: at each line start,
a `'>'` and the (greedy, possibly line-crossing) whitespace after it are
deleted; `atStart` tracks whether `^` holds at the current position. -/
def stripGtGo : Nat → Bool → List Char → List Char
  | 0, _, s => s
  | _ + 1, _, [] => []
  | fuel + 1, atStart, c :: rest =>
    if atStart && c == '>' then
      let run := rest.takeWhile jsIsSpace
      stripGtGo fuel (run.getLast? == some '\n') (rest.dropWhile jsIsSpace)
    else
      c :: stripGtGo fuel (c == '\n') rest

def stripGt (s : List Char) : List Char :=
  stripGtGo s.length true s

/-- The blockquote branch of the block classifier. -/
def mkBlockquote (b : List Char) : List Char :=
  "<blockquote class=\"story-callout\">".data ++ nlToBr (stripGt b) ++
    "</blockquote>".data

/-- Embeds `/^[\*\-\+]\s/.test(block)`. -/
def ulTest : List Char → Bool
  | c :: d :: _ => (c == '*' || c == '-' || c == '+') && jsIsSpace d
  | _ => false

/-- Embeds `line.match(/^[\*\-\+]\s(.+)/)`: marker, one whitespace char, then a
non-empty rest of line. -/
def ulItem (line : List Char) : Option (List Char) :=
  match line with
  | c :: d :: e :: r =>
    if (c == '*' || c == '-' || c == '+') && jsIsSpace d then some (e :: r)
    else none
  | _ => none

/-- Embeds `/^\d+\.\s/.test(block)`: one or more digits, a dot, a whitespace char.
Backtracking over `\d+` cannot help because `'.'` is not a digit, so the
maximal digit run is the only candidate. -/
def olTest (b : List Char) : Bool :=
  let ds := b.takeWhile Char.isDigit
  match ds, b.dropWhile Char.isDigit with
  | _ :: _, '.' :: d :: _ => jsIsSpace d
  | _, _ => false

/-- Embeds `line.match(/^\d+\.\s(.+)/)`. -/
def olItem (line : List Char) : Option (List Char) :=
  let ds := line.takeWhile Char.isDigit
  match ds, line.dropWhile Char.isDigit with
  | _ :: _, '.' :: d :: e :: r => if jsIsSpace d then some (e :: r) else none
  | _, _ => none

/-- The `<li>…</li>` items: map, drop non-matching lines, join with `''`. -/
def listItems (item : List Char → Option (List Char)) (b : List Char) :
    List Char :=
  ((splitOnNl b).map (fun line =>
      match item line with
      | some t => "<li>".data ++ t ++ "</li>".data
      | none => [])).foldr (· ++ ·) []

/-- The per-block classifier inside `blocks.map((block) => …)`. -/
def processBlock (block : List Char) : List Char :=
  let b := jsTrim block
  if b.isEmpty then []
  else if matchPre false "<h".data b then b
  else if matchPre false ">".data b then mkBlockquote b
  else if ulTest b then "<ul class=\"bullet-list\">".data ++ listItems ulItem b ++ "</ul>".data
  else if olTest b then "<ol class=\"numbered-list\">".data ++ listItems olItem b ++ "</ol>".data
  else "<p class=\"story-text\">".data ++ nlToBr b ++ "</p>".data

/-- Join the processed blocks with `'\n\n'`. -/
def joinBlocks : List (List Char) → List Char
  | [] => []
  | [b] => b
  | b :: bs => b ++ '\n' :: '\n' :: joinBlocks bs

/-! ## Inline formatting and final newline cleanup -/

/-- Lazy search for the closing delimiter of `op(.*?)cl`: the content may
not contain `'\n'` (`.` does not match line terminators) and the first
possible close wins. -/
def findClose (cl : List Char) : List Char → Option (List Char × List Char)
  | [] => none
  | c :: r =>
    if matchPre false cl (c :: r) then some ([], List.drop cl.length (c :: r))
    else if c = '\n' then none
    else (findClose cl r).map (fun pr => (c :: pr.1, pr.2))

/-- Fueled scanner for `s.replace(/op(.*?)cl/g, pre ++ $1 ++ post)`. -/
def inlGo (op cl pre post : List Char) : Nat → List Char → List Char
  | 0, s => s
  | _ + 1, [] => []
  | fuel + 1, c :: rest =>
    if matchPre false op (c :: rest) then
      match findClose cl (List.drop op.length (c :: rest)) with
      | some (content, rem) =>
        pre ++ content ++ post ++ inlGo op cl pre post fuel rem
      | none => c :: inlGo op cl pre post fuel rest
    else c :: inlGo op cl pre post fuel rest

def inlineBold (s : List Char) : List Char :=
  inlGo "**".data "**".data "<strong>".data "</strong>".data s.length s

def inlineStar (s : List Char) : List Char :=
  inlGo ['*'] ['*'] "<em>".data "</em>".data s.length s

def inlineUnderscore (s : List Char) : List Char :=
  inlGo ['_'] ['_'] "<em>".data "</em>".data s.length s

def inlineCode (s : List Char) : List Char :=
  inlGo [Char.ofNat 96] [Char.ofNat 96] "<code>".data "</code>".data s.length s

/-- Fueled scanner for the cleanup `.replace(/\n\s*\n\s*\n/g, '\n\n')`. -/
def squeezeGo : Nat → List Char → List Char
  | 0, s => s
  | _ + 1, [] => []
  | fuel + 1, c :: rest =>
    if c = '\n' then
      let run := rest.takeWhile jsIsSpace
      if 2 ≤ (run.filter (fun d => d == '\n')).length then
        '\n' :: '\n' :: squeezeGo fuel
          ((run.reverse.takeWhile (fun d => !(d == '\n'))).reverse ++
            rest.dropWhile jsIsSpace)
      else c :: squeezeGo fuel rest
    else c :: squeezeGo fuel rest

def squeezeNewlines (s : List Char) : List Char :=
  squeezeGo s.length s

/-- The converter `markdownToHTMLManual`: headers, block split, per-block classification,
join, inline formatting, newline cleanup. -/
def markdownToHTMLManualL (md : List Char) : List Char :=
  squeezeNewlines (inlineCode (inlineUnderscore (inlineStar (inlineBold
    (joinBlocks ((splitBlocks (headersPass md)).map processBlock))))))

def markdownToHTMLManual (md : String) : String :=
  ⟨markdownToHTMLManualL md.data⟩

/-- The function `markdownToHTML` with the external `marked.parse` library call as a
parameter (it is third-party code, not part of this repository; it may
throw, which the handler's `try`/`catch` turns into a 500). -/
def markdownToHTMLE (parse : String → Except String String) (md : String) :
    Except String String :=
  (parse (markdownToHTMLManual md)).map addStoryClasses

/-- The function `markdownToHTML` for a non-throwing library parse. -/
def markdownToHTMLWith (parse : String → String) (md : String) : String :=
  addStoryClasses (parse (markdownToHTMLManual md))

/-! ## Story metadata, banner and the customization handler -/

/-- The `STORY_METADATA` record (the fields the handler reads). -/
structure StoryMeta where
  title : String
  originalName : String
  originalPronoun : PronounKey
  description : String
  slug : String
  image : String
deriving DecidableEq

def islandMeta : StoryMeta :=
  ⟨"The Island of Almosts", "Sam", .he,
    "A magical adventure about a struggling child.", "island",
    "https://junothreadborne.me/island-cover.webp"⟩

/-- Property names a plain object literal inherits from `Object.prototype`;
reading any of them off `STORY_METADATA` or `PRONOUNS` yields a truthy
value (a method, or for `__proto__` the prototype object itself), never
`undefined`. -/
def protoProps : List String :=
  ["constructor", "hasOwnProperty", "isPrototypeOf", "propertyIsEnumerable",
   "toLocaleString", "toString", "valueOf", "__defineGetter__",
   "__defineSetter__", "__lookupGetter__", "__lookupSetter__", "__proto__"]

/-- The `STORY_METADATA[storyKey]` property read, as tested by
`!storyMeta`: `none` is `undefined` (falsy, so the 404 branch fires);
`some (some m)` is an own entry; `some none` is a truthy value inherited
from `Object.prototype` — it passes the `!storyMeta` test although it is
not story metadata, and every field read on it gives `undefined`. -/
def lookupStory (storyKey : String) : Option (Option StoryMeta) :=
  if storyKey = "island" then some (some islandMeta)
  else if protoProps.contains storyKey then some none
  else none

/-- JS truthiness of a nullable string (`null` and `""` are falsy). -/
def strTruthy : Option String → Bool
  | none => false
  | some s => !(s == "")

/-- Embeds `customPronoun || 'he'`. -/
def jsOr (o : Option String) (d : String) : String :=
  match o with
  | none => d
  | some s => if s = "" then d else s

/-- The `PRONOUNS[pronounKey]` property read, as tested by
`!PRONOUNS[pronounKey]`: `none` is `undefined` (falsy, so the 400 branch
fires); `some (some k)` is an own family; `some none` is a truthy value
inherited from `Object.prototype`, which passes the test although its five
pronoun fields all read as `undefined`. -/
def parsePronounKey (s : String) : Option (Option PronounKey) :=
  if s = "he" then some (some .he)
  else if s = "she" then some (some .she)
  else if s = "they" then some (some .they)
  else if protoProps.contains s then some none
  else none

/-- The string the source interpolates for a pronoun key. -/
def keyName : PronounKey → String
  | .he => "he"
  | .she => "she"
  | .they => "they"

/-- The `bannerText` computation of `handleStoryCustomization`. -/
def bannerTextL (meta : StoryMeta) (customName : Option String)
    (pk : PronounKey) : List Char :=
  if strTruthy customName && !(pk == meta.originalPronoun) then
    "✨ Customized for ".data ++ (customName.getD "").data ++ " (".data ++
      (keyName pk).data ++ "/".data ++ (PRONOUNS pk).object.data ++ ")".data
  else if strTruthy customName then
    "✨ Customized for ".data ++ (customName.getD "").data
  else if !(pk == meta.originalPronoun) then
    "✨ Using ".data ++ (keyName pk).data ++ "/".data ++
      (PRONOUNS pk).object.data ++ " pronouns".data
  else []

def bannerText (meta : StoryMeta) (customName : Option String)
    (pk : PronounKey) : String :=
  ⟨bannerTextL meta customName pk⟩

/-- Lines 321–327 of the handler: which rewrite (if any) is applied to the
rendered HTML. -/
def customizeCore (html : String) (originalName : String)
    (origPk : PronounKey) (customName : Option String) (pk : PronounKey) :
    String :=
  if strTruthy customName then
    rewritePronouns html originalName (customName.getD "") pk
  else if pk ≠ origPk then
    rewritePronouns html originalName originalName pk
  else html

/-- The customized-HTML pipeline of the handler, for a source document
`md`: render (manual pass, library parse, class injection), then rewrite. -/
def customizeStory (parse : String → String) (md originalName : String)
    (origPk : PronounKey) (customName : Option String) (pk : PronounKey) :
    String :=
  customizeCore (markdownToHTMLWith parse md) originalName origPk customName pk

/-- Modelled from the spec: the control flow claimed in §2, "raw markdown →
[Pronoun Rewriter, conditional] → [Markdown Renderer] → HTML fragment" —
the rewrite is applied to the raw markdown and the renderer receives the
rewritten markdown. -/
def customizeStorySpecOrder (parse : String → String) (md originalName : String)
    (origPk : PronounKey) (customName : Option String) (pk : PronounKey) :
    String :=
  markdownToHTMLWith parse (customizeCore md originalName origPk customName pk)

/-- Fueled scanner for a global whole-word replace whose replacement closure
may throw (`none`): the structure of `scanGo` with the exception
propagated out of the whole replace. -/
def scanEGo (ci : Bool) (p : List Char) (f : List Char → Option (List Char)) :
    Nat → Bool → List Char → Option (List Char)
  | 0, _, s => some s
  | _ + 1, _, [] => some []
  | fuel + 1, prevW, c :: rest =>
    if !prevW && matchPre ci p (c :: rest) &&
        wordEndOk (List.drop p.length (c :: rest)) then
      match f (List.take p.length (c :: rest)) with
      | none => none
      | some rep =>
        match scanEGo ci p f fuel true (List.drop p.length (c :: rest)) with
        | none => none
        | some t => some (rep ++ t)
    else
      match scanEGo ci p f fuel (isWordChar c) rest with
      | none => none
      | some t => some (c :: t)

/-- Embeds `text.replace(/\bp\b/gi, f)` for a closure that may throw. -/
def replaceWordE (ci : Bool) (p : List Char)
    (f : List Char → Option (List Char)) (s : List Char) :
    Option (List Char) :=
  if p.isEmpty then some s else scanEGo ci p f s.length false s

/-- The pronoun replacement closure when the target family is a truthy
inherited value: every target form reads `undefined`, so
`match[0] === match[0].toUpperCase()` routes an uppercase-first match to
`capitalize(undefined)`, which throws (`none`) on `undefined.charAt`,
while a lowercase-first match makes the closure return `undefined`, which
`String.prototype.replace` stringifies into the text as `"undefined"`. -/
def caseRepU (m : List Char) : Option (List Char) :=
  match m with
  | [] => none
  | c :: _ => if jsHeadUpper c then none else some "undefined".data

/-- The body of `rewritePronouns` when `pronounKey` is an inherited
`Object.prototype` name: `PRONOUNS[pronounKey] || PRONOUNS['he']` keeps the
truthy inherited value, the two name replacements run with the real names,
and the five pronoun stages run the throwing closure over the hard-coded
`PRONOUNS['he']` patterns (the possessive stage repeats the pattern
`his`). -/
def rewriteJunkL (text o n : List Char) : Option (List Char) := do
  let t1 ← replaceWordE true "he".data caseRepU (nameStep2 o n (nameStep1 o n text))
  let t2 ← replaceWordE true "him".data caseRepU t1
  let t3 ← replaceWordE true "his".data caseRepU t2
  let t4 ← replaceWordE true "his".data caseRepU t3
  replaceWordE true "himself".data caseRepU t4

/-- The `bannerText` computation when `pronounKey` is an inherited
`Object.prototype` name: the string comparison with the original family
always differs, and `PRONOUNS[pronounKey].object` interpolates as
`undefined`. -/
def bannerJunkL (customName : Option String) (pk : String) : List Char :=
  if strTruthy customName then
    "✨ Customized for ".data ++ (customName.getD "").data ++ " (".data ++
      pk.data ++ "/undefined)".data
  else
    "✨ Using ".data ++ pk.data ++ "/undefined pronouns".data

/-- Outcome of `handleStoryCustomization`, one constructor per `Response`
shape the source constructs. -/
inductive CustomizeResult where
  | ok (html : String) (banner : String)
  | documentNotFound (body : String)
  | invalidPronounFamily (body : String)
  | sourceUnavailable (body : String)
  | internalError (body : String)
deriving DecidableEq, Repr

/-- The HTTP status the source attaches to each outcome. -/
def statusOf : CustomizeResult → Nat
  | .ok _ _ => 200
  | .documentNotFound _ => 404
  | .invalidPronounFamily _ => 400
  | .sourceUnavailable _ => 503
  | .internalError _ => 500

/-- The handler `handleStoryCustomization`.  The document source lookup is modelled per
§6 as "the raw markdown text or a not-available signal" (`fetchResult`);
the library parse may fail, and the surrounding `try`/`catch` also catches
the `TypeError`s thrown on the inherited-property bypass paths: with an
inherited story value, `originalName` reads as `undefined` and
`originalName.toLowerCase()` throws while the replacement list is built,
before any replacement runs; with an inherited pronoun value, an
uppercase-first pronoun match throws inside `capitalize(undefined)`,
while an all-lowercase rewrite survives and a 200 page is produced with
`undefined` spliced into text and banner. -/
def handleStoryCustomization (parse : String → Except String String)
    (storyKey : String) (customName : Option String)
    (customPronoun : Option String) (fetchResult : Option String) :
    CustomizeResult :=
  match lookupStory storyKey with
  | none => .documentNotFound ("Story \"" ++ storyKey ++ "\" not found")
  | some metaVal =>
    match parsePronounKey (jsOr customPronoun "he") with
    | none =>
      .invalidPronounFamily ("Invalid pronoun \"" ++ (customPronoun.getD "null") ++
        "\". Use: he, she, or they")
    | some pkVal =>
      match fetchResult with
      | none => .sourceUnavailable "Story content not available"
      | some storyMarkdown =>
        match markdownToHTMLE parse storyMarkdown with
        | .error _ => .internalError "Internal Server Error"
        | .ok htmlBeforePronouns =>
          match metaVal with
          | none => .internalError "Internal Server Error"
          | some storyMeta =>
            match pkVal with
            | some pronounKey =>
              .ok (customizeCore htmlBeforePronouns storyMeta.originalName
                    storyMeta.originalPronoun customName pronounKey)
                  (bannerText storyMeta customName pronounKey)
            | none =>
              match rewriteJunkL htmlBeforePronouns.data
                  storyMeta.originalName.data
                  (if strTruthy customName then (customName.getD "").data
                   else storyMeta.originalName.data) with
              | none => .internalError "Internal Server Error"
              | some h =>
                .ok ⟨h⟩ ⟨bannerJunkL customName (jsOr customPronoun "he")⟩

/-! ## Lemmas about literal replacement (for the class-injection pass) -/

/-- Whether `p` occurs as a contiguous substring of `s`. -/
def hasSub (p : List Char) : List Char → Bool
  | [] => p.isEmpty
  | c :: r => matchPre false p (c :: r) || hasSub p r

/-- The shape shared by all `addStoryClasses` patterns and replacements:
non-empty, starting with `'<'`, with no other `'<'`. -/
def onlyHeadLt : List Char → Bool
  | [] => false
  | c :: r => c == '<' && r.all (fun d => !(d == '<'))

/-! ## Token view of whole-word replacement -/

/-- A maximal run of word characters, or a single non-word character. -/
inductive Tok where
  | word (w : List Char)
  | sep (c : Char)
deriving DecidableEq, Repr

def tokChars : Tok → List Char
  | .word w => w
  | .sep c => [c]

def flattenT : List Tok → List Char
  | [] => []
  | t :: ts => tokChars t ++ flattenT ts

/-- Fueled tokenizer: split a string into maximal word runs and single
separator characters. -/
def toksGo : Nat → List Char → List Tok
  | 0, _ => []
  | _ + 1, [] => []
  | fuel + 1, c :: rest =>
    if isWordChar c then
      .word (c :: rest.takeWhile isWordChar) :: toksGo fuel (rest.dropWhile isWordChar)
    else .sep c :: toksGo fuel rest

def toks (s : List Char) : List Tok := toksGo s.length s

/-- Case-insensitive equality of whole words (the condition under which a
`\bp\b` pattern with the `i` flag matches a maximal word run exactly). -/
def sameWord (p w : List Char) : Bool := p.map foldN == w.map foldN

/-- The effect of one whole-word case-insensitive replacement on a token. -/
def tokMapW (p : List Char) (f : List Char → List Char) : Tok → Tok
  | .word w => if sameWord p w then .word (f w) else .word w
  | .sep c => .sep c

/-- Whether `p` occurs as a whole word (case-insensitively) somewhere in `s`. -/
def hasWordCI (p s : List Char) : Bool :=
  (toks s).any fun t =>
    match t with
    | .word w => sameWord p w
    | .sep _ => false

def allWord (l : List Char) : Bool := l.all isWordChar

/-- Shape invariant of tokenizer output: word tokens are non-empty word
runs, separator tokens are non-word characters, and no two word tokens are
adjacent (runs are maximal). -/
def goodToks : List Tok → Bool
  | [] => true
  | .sep c :: ts => !isWordChar c && goodToks ts
  | .word w :: ts =>
    (!w.isEmpty && allWord w) &&
      (match ts with
       | .word _ :: _ => false
       | _ => goodToks ts)

/-! ## Lemmas and claim theorems -/

theorem matchPre_false_nil (p : List Char) (hp : p ≠ []) :
    matchPre false p [] = false := by
  cases p with
  | nil => exact absurd rfl hp
  | cons a p' => rfl

theorem hasSub_nil_of_ne (q : List Char) (hq : q ≠ []) : hasSub q [] = false := by
  cases q with
  | nil => exact absurd rfl hq
  | cons a q' => rfl

theorem hasSub_of_matchPre (q s : List Char) (h : matchPre false q s = true) :
    hasSub q s = true := by
  cases s with
  | nil =>
    cases q with
    | nil => rfl
    | cons a q' => simp [matchPre] at h
  | cons c r => simp [hasSub, h]

theorem hasSub_false_tail (q : List Char) (c : Char) (r : List Char)
    (h : hasSub q (c :: r) = false) : hasSub q r = false := by
  simp [hasSub] at h
  exact h.2

theorem matchPre_false_head (q : List Char) (c : Char) (s : List Char)
    (hq : q ≠ []) (h : matchPre false q (c :: s) = true) :
    q.head hq == c := by
  cases q with
  | nil => exact absurd rfl hq
  | cons a q' =>
    simp only [matchPre, charMatches, Bool.and_eq_true] at h
    simpa using h.1

theorem matchPre_append_left (w : List Char) :
    ∀ r T : List Char, w.length ≤ r.length →
    matchPre false w (r ++ T) = matchPre false w r := by
  induction w with
  | nil => intro r T _; rfl
  | cons a w' ih =>
    intro r T hlen
    cases r with
    | nil => simp at hlen
    | cons b r' =>
      show (charMatches false a b && matchPre false w' (r' ++ T)) =
        (charMatches false a b && matchPre false w' r')
      rw [ih r' T (by simpa using hlen)]

theorem length_le_of_matchPre (w : List Char) :
    ∀ s : List Char, matchPre false w s = true → w.length ≤ s.length := by
  induction w with
  | nil => intro s _; simp
  | cons a w' ih =>
    intro s h
    cases s with
    | nil => simp [matchPre] at h
    | cons b s' =>
      simp only [matchPre, Bool.and_eq_true] at h
      have := ih s' h.2
      simpa using this

/-- Occurrences of a `<`-headed pattern cannot sit inside a run of
non-`<` characters: they are confined to the continuation. -/
theorem hasSub_nonlt_append (qt : List Char) :
    ∀ l T : List Char, l.all (fun d => !(d == '<')) = true →
      hasSub ('<' :: qt) (l ++ T) = hasSub ('<' :: qt) T := by
  intro l
  induction l with
  | nil => intro T _; rfl
  | cons x l' ih =>
    intro T hall
    simp only [List.all_cons, Bool.and_eq_true] at hall
    have hx : ('<' == x) = false := by
      have : (x == '<') = false := by simpa using hall.1
      simp only [beq_eq_false_iff_ne] at this ⊢
      exact fun he => this he.symm
    have hm : matchPre false ('<' :: qt) (x :: (l' ++ T)) = false := by
      show (charMatches false '<' x && matchPre false qt (l' ++ T)) = false
      simp [charMatches, hx]
    show (matchPre false ('<' :: qt) (x :: (l' ++ T)) ||
      hasSub ('<' :: qt) (l' ++ T)) = hasSub ('<' :: qt) T
    rw [hm, ih T hall.2, Bool.false_or]

/-- Appending after a replacement string cannot create an occurrence of a
shorter `<`-headed pattern that the replacement itself does not contain. -/
theorem hasSub_append_repl (q r T : List Char)
    (hq : onlyHeadLt q = true) (hr : onlyHeadLt r = true)
    (hqr : hasSub q r = false) (hlen : q.length < r.length)
    (hT : hasSub q T = false) : hasSub q (r ++ T) = false := by
  cases r with
  | nil => simp [onlyHeadLt] at hr
  | cons b r' =>
    simp only [onlyHeadLt, Bool.and_eq_true, beq_iff_eq] at hr
    cases q with
    | nil => simp [onlyHeadLt] at hq
    | cons a q' =>
      simp only [onlyHeadLt, Bool.and_eq_true, beq_iff_eq] at hq
      obtain ⟨ha, hq2⟩ := hq
      subst ha
      have h2 : hasSub ('<' :: q') (r' ++ T) = hasSub ('<' :: q') T :=
        hasSub_nonlt_append q' r' T hr.2
      have h1 : matchPre false ('<' :: q') (b :: (r' ++ T)) =
          matchPre false ('<' :: q') (b :: r') := by
        have := matchPre_append_left ('<' :: q') (b :: r') T (by
          simp only [List.length_cons] at hlen ⊢; omega)
        exact this
      have hm : matchPre false ('<' :: q') (b :: r') = false := by
        by_contra hcon
        rw [Bool.not_eq_false] at hcon
        have := hasSub_of_matchPre _ _ hcon
        rw [hqr] at this
        exact Bool.false_ne_true this
      show (matchPre false ('<' :: q') (b :: (r' ++ T)) ||
        hasSub ('<' :: q') (r' ++ T)) = false
      rw [h1, hm, h2, hT, Bool.false_or]

theorem onlyHeadLt_ne_nil (q : List Char) (h : onlyHeadLt q = true) : q ≠ [] := by
  cases q with
  | nil => simp [onlyHeadLt] at h
  | cons a q' => exact List.cons_ne_nil a q'

theorem onlyHeadLt_length_pos (q : List Char) (h : onlyHeadLt q = true) :
    0 < q.length := by
  cases q with
  | nil => simp [onlyHeadLt] at h
  | cons a q' => simp

theorem hasSub_false_drop (q : List Char) (hq : q ≠ []) :
    ∀ (k : Nat) (s : List Char), hasSub q s = false → hasSub q (s.drop k) = false := by
  intro k
  induction k with
  | zero => intro s h; simpa using h
  | succ k ih =>
    intro s h
    cases s with
    | nil => simpa using h
    | cons c rest =>
      have := hasSub_false_tail q c rest h
      simpa using ih rest this

theorem all_head (P : Char → Bool) (c : Char) (l : List Char)
    (h : (c :: l).all P = true) : P c = true := by
  simp only [List.all_cons, Bool.and_eq_true] at h
  exact h.1

theorem replGo_id (p r : List Char) :
    ∀ (fuel : Nat) (s : List Char), hasSub p s = false → replGo p r fuel s = s := by
  intro fuel
  induction fuel with
  | zero => intro s _; rfl
  | succ fuel ih =>
    intro s h
    cases s with
    | nil => rfl
    | cons c rest =>
      simp only [hasSub, Bool.or_eq_false_iff] at h
      simp only [replGo, h.1, if_false, Bool.false_eq_true]
      rw [ih rest h.2]

/-- Any non-empty suffix of `q` that prefixes the scanner's output already
prefixed the input (under the shape conditions on `q` and `r`). -/
theorem replGo_span (p r q : List Char) (hq : onlyHeadLt q = true)
    (hr : onlyHeadLt r = true) (hqr : hasSub q r = false)
    (hlen : q.length < r.length) :
    ∀ (fuel : Nat) (s w : List Char), w ≠ [] → (∃ a, a ++ w = q) →
      matchPre false w (replGo p r fuel s) = true →
      matchPre false w s = true := by
  intro fuel
  induction fuel with
  | zero => intro s w _ _ hm; exact hm
  | succ fuel ih =>
    intro s w hw hsuf hm
    cases s with
    | nil =>
      rw [show replGo p r (fuel + 1) [] = [] from rfl] at hm
      rw [matchPre_false_nil w hw] at hm
      exact absurd hm (by simp)
    | cons c rest =>
      by_cases hmatch : matchPre false p (c :: rest) = true
      · -- a replacement was emitted here; no suffix of q can prefix it
        exfalso
        simp only [replGo, hmatch, if_true] at hm
        obtain ⟨a, ha⟩ := hsuf
        have hwq : w.length ≤ q.length := by
          rw [← ha, List.length_append]; omega
        have hwr : w.length ≤ r.length := by omega
        rw [matchPre_append_left w r _ hwr] at hm
        cases r with
        | nil => simp [onlyHeadLt] at hr
        | cons b r' =>
          simp only [onlyHeadLt, Bool.and_eq_true, beq_iff_eq] at hr
          cases w with
          | nil => exact hw rfl
          | cons wc wt =>
            have hwc : wc = b := by
              have := matchPre_false_head (wc :: wt) b (r') (by simp) hm
              simpa [List.head] using this
            cases a with
            | nil =>
              simp only [List.nil_append] at ha
              rw [ha] at hm
              have := hasSub_of_matchPre q (b :: r') hm
              rw [hqr] at this
              exact Bool.false_ne_true this
            | cons x a' =>
              cases q with
              | nil => simp [onlyHeadLt] at hq
              | cons qh qt =>
                simp only [onlyHeadLt, Bool.and_eq_true] at hq
                have ha2 : x :: (a' ++ wc :: wt) = qh :: qt := by simpa using ha
                injection ha2 with hx hqt
                have hall := hq.2
                rw [← hqt, List.all_append] at hall
                simp only [Bool.and_eq_true] at hall
                have hwcb := all_head _ wc wt hall.2
                rw [hwc, hr.1] at hwcb
                simp at hwcb
      · have hmf : matchPre false p (c :: rest) = false := by
          simpa using hmatch
        simp only [replGo, hmf, if_false, Bool.false_eq_true] at hm
        cases w with
        | nil => exact absurd rfl hw
        | cons wc wt =>
          simp only [matchPre, Bool.and_eq_true] at hm
          cases wt with
          | nil =>
            show (charMatches false wc c && true) = true
            simp [hm.1]
          | cons wt1 wt2 =>
            obtain ⟨a, ha⟩ := hsuf
            have hsuf' : ∃ a', a' ++ (wt1 :: wt2) = q :=
              ⟨a ++ [wc], by rw [← ha]; simp⟩
            have := ih rest (wt1 :: wt2) (by simp) hsuf' hm.2
            show (charMatches false wc c && matchPre false (wt1 :: wt2) rest) = true
            simp [hm.1, this]

/-- After replacing every occurrence of `p` by `r`, no occurrence of `p`
remains (the replacement cannot recreate the pattern). -/
theorem replGo_removes (p r : List Char) (hp : onlyHeadLt p = true)
    (hr : onlyHeadLt r = true) (hpr : hasSub p r = false)
    (hlen : p.length < r.length) :
    ∀ (fuel : Nat) (s : List Char), s.length ≤ fuel →
      hasSub p (replGo p r fuel s) = false := by
  intro fuel
  induction fuel with
  | zero =>
    intro s hs
    have : s = [] := List.eq_nil_of_length_eq_zero (Nat.le_zero.mp hs)
    rw [this]
    exact hasSub_nil_of_ne p (onlyHeadLt_ne_nil p hp)
  | succ fuel ih =>
    intro s hs
    cases s with
    | nil => exact hasSub_nil_of_ne p (onlyHeadLt_ne_nil p hp)
    | cons c rest =>
      by_cases hmatch : matchPre false p (c :: rest) = true
      · simp only [replGo, hmatch, if_true]
        have hplen := onlyHeadLt_length_pos p hp
        have hdrop : (List.drop p.length (c :: rest)).length ≤ fuel := by
          rw [List.length_drop]
          simp only [List.length_cons] at hs ⊢
          omega
        exact hasSub_append_repl p r _ hp hr hpr hlen (ih _ hdrop)
      · have hmf : matchPre false p (c :: rest) = false := by simpa using hmatch
        simp only [replGo, hmf, if_false, Bool.false_eq_true]
        have hrest : hasSub p (replGo p r fuel rest) = false :=
          ih rest (by simp only [List.length_cons] at hs; omega)
        simp only [hasSub, Bool.or_eq_false_iff]
        refine ⟨?_, hrest⟩
        by_contra hcon
        rw [Bool.not_eq_false] at hcon
        cases p with
        | nil => simp [onlyHeadLt] at hp
        | cons pc pt =>
          simp only [matchPre, Bool.and_eq_true] at hcon
          cases pt with
          | nil =>
            have : matchPre false [pc] (c :: rest) = true := by
              simp [matchPre, hcon.1]
            rw [this] at hmf
            exact Bool.true_eq_false.mp hmf
          | cons pt1 pt2 =>
            have hsp := replGo_span (pc :: pt1 :: pt2) r (pc :: pt1 :: pt2) hp hr
              hpr hlen fuel rest (pt1 :: pt2) (by simp) ⟨[pc], by simp⟩ hcon.2
            have : matchPre false (pc :: pt1 :: pt2) (c :: rest) = true := by
              simp [matchPre, hcon.1, hsp]
            rw [this] at hmf
            exact Bool.true_eq_false.mp hmf

/-- Replacing `p` by `r` cannot create an occurrence of an absent pattern
`q` of the same shape. -/
theorem replGo_preserves (p r q : List Char) (hq : onlyHeadLt q = true)
    (hr : onlyHeadLt r = true) (hqr : hasSub q r = false)
    (hlen : q.length < r.length) :
    ∀ (fuel : Nat) (s : List Char), hasSub q s = false →
      hasSub q (replGo p r fuel s) = false := by
  intro fuel
  induction fuel with
  | zero => intro s h; exact h
  | succ fuel ih =>
    intro s h
    cases s with
    | nil => exact hasSub_nil_of_ne q (onlyHeadLt_ne_nil q hq)
    | cons c rest =>
      simp only [hasSub, Bool.or_eq_false_iff] at h
      by_cases hmatch : matchPre false p (c :: rest) = true
      · simp only [replGo, hmatch, if_true]
        have hdrop : hasSub q (List.drop p.length (c :: rest)) = false := by
          have htail : hasSub q (c :: rest) = false := by
            simp [hasSub, h.1, h.2]
          exact hasSub_false_drop q (onlyHeadLt_ne_nil q hq) _ _ htail
        exact hasSub_append_repl q r _ hq hr hqr hlen (ih _ hdrop)
      · have hmf : matchPre false p (c :: rest) = false := by simpa using hmatch
        simp only [replGo, hmf, if_false, Bool.false_eq_true]
        have hrest : hasSub q (replGo p r fuel rest) = false := ih rest h.2
        simp only [hasSub, Bool.or_eq_false_iff]
        refine ⟨?_, hrest⟩
        by_contra hcon
        rw [Bool.not_eq_false] at hcon
        cases q with
        | nil => simp [onlyHeadLt] at hq
        | cons qc qt =>
          simp only [matchPre, Bool.and_eq_true] at hcon
          cases qt with
          | nil =>
            have : matchPre false [qc] (c :: rest) = true := by
              simp [matchPre, hcon.1]
            rw [this] at h
            exact absurd h.1 (by simp)
          | cons qt1 qt2 =>
            have hsp := replGo_span p r (qc :: qt1 :: qt2) hq hr hqr hlen fuel rest
              (qt1 :: qt2) (by simp) ⟨[qc], by simp⟩ hcon.2
            have : matchPre false (qc :: qt1 :: qt2) (c :: rest) = true := by
              simp [matchPre, hcon.1, hsp]
            rw [this] at h
            exact absurd h.1 (by simp)

/-- The pass `replaceAll` is the identity when the pattern does not occur. -/
theorem replaceAll_id (p r s : List Char) (hp : p ≠ [])
    (h : hasSub p s = false) : replaceAll p r s = s := by
  unfold replaceAll
  rw [if_neg (by simpa [List.isEmpty_iff] using hp)]
  exact replGo_id p r s.length s h

theorem replaceAll_removes (p r s : List Char) (hp : onlyHeadLt p = true)
    (hr : onlyHeadLt r = true) (hpr : hasSub p r = false)
    (hlen : p.length < r.length) : hasSub p (replaceAll p r s) = false := by
  unfold replaceAll
  rw [if_neg (by simpa [List.isEmpty_iff] using onlyHeadLt_ne_nil p hp)]
  exact replGo_removes p r hp hr hpr hlen s.length s (Nat.le_refl _)

theorem replaceAll_preserves (p r q s : List Char) (hq : onlyHeadLt q = true)
    (hr : onlyHeadLt r = true) (hqr : hasSub q r = false)
    (hlen : q.length < r.length) (h : hasSub q s = false) :
    hasSub q (replaceAll p r s) = false := by
  unfold replaceAll
  split
  · exact h
  · exact replGo_preserves p r q hq hr hqr hlen s.length s h

theorem hasSub_addStory_h1 (x : List Char) :
    hasSub "<h1>".data (addStoryClassesL x) = false := by
  unfold addStoryClassesL addStoryClasses7
  refine replaceAll_preserves _ _ _ _ (by decide) (by decide) (by decide) (by decide) ?_
  refine replaceAll_preserves _ _ _ _ (by decide) (by decide) (by decide) (by decide) ?_
  refine replaceAll_preserves _ _ _ _ (by decide) (by decide) (by decide) (by decide) ?_
  refine replaceAll_preserves _ _ _ _ (by decide) (by decide) (by decide) (by decide) ?_
  refine replaceAll_preserves _ _ _ _ (by decide) (by decide) (by decide) (by decide) ?_
  refine replaceAll_preserves _ _ _ _ (by decide) (by decide) (by decide) (by decide) ?_
  refine replaceAll_preserves _ _ _ _ (by decide) (by decide) (by decide) (by decide) ?_
  exact replaceAll_removes _ _ _ (by decide) (by decide) (by decide) (by decide)

theorem hasSub_addStory_h2 (x : List Char) :
    hasSub "<h2>".data (addStoryClassesL x) = false := by
  unfold addStoryClassesL addStoryClasses7
  refine replaceAll_preserves _ _ _ _ (by decide) (by decide) (by decide) (by decide) ?_
  refine replaceAll_preserves _ _ _ _ (by decide) (by decide) (by decide) (by decide) ?_
  refine replaceAll_preserves _ _ _ _ (by decide) (by decide) (by decide) (by decide) ?_
  refine replaceAll_preserves _ _ _ _ (by decide) (by decide) (by decide) (by decide) ?_
  refine replaceAll_preserves _ _ _ _ (by decide) (by decide) (by decide) (by decide) ?_
  refine replaceAll_preserves _ _ _ _ (by decide) (by decide) (by decide) (by decide) ?_
  exact replaceAll_removes _ _ _ (by decide) (by decide) (by decide) (by decide)

theorem hasSub_addStory_h3 (x : List Char) :
    hasSub "<h3>".data (addStoryClassesL x) = false := by
  unfold addStoryClassesL addStoryClasses7
  refine replaceAll_preserves _ _ _ _ (by decide) (by decide) (by decide) (by decide) ?_
  refine replaceAll_preserves _ _ _ _ (by decide) (by decide) (by decide) (by decide) ?_
  refine replaceAll_preserves _ _ _ _ (by decide) (by decide) (by decide) (by decide) ?_
  refine replaceAll_preserves _ _ _ _ (by decide) (by decide) (by decide) (by decide) ?_
  refine replaceAll_preserves _ _ _ _ (by decide) (by decide) (by decide) (by decide) ?_
  exact replaceAll_removes _ _ _ (by decide) (by decide) (by decide) (by decide)

theorem hasSub_addStory_p (x : List Char) :
    hasSub "<p>".data (addStoryClassesL x) = false := by
  unfold addStoryClassesL addStoryClasses7
  refine replaceAll_preserves _ _ _ _ (by decide) (by decide) (by decide) (by decide) ?_
  refine replaceAll_preserves _ _ _ _ (by decide) (by decide) (by decide) (by decide) ?_
  refine replaceAll_preserves _ _ _ _ (by decide) (by decide) (by decide) (by decide) ?_
  refine replaceAll_preserves _ _ _ _ (by decide) (by decide) (by decide) (by decide) ?_
  exact replaceAll_removes _ _ _ (by decide) (by decide) (by decide) (by decide)

theorem hasSub_addStory_ul (x : List Char) :
    hasSub "<ul>".data (addStoryClassesL x) = false := by
  unfold addStoryClassesL addStoryClasses7
  refine replaceAll_preserves _ _ _ _ (by decide) (by decide) (by decide) (by decide) ?_
  refine replaceAll_preserves _ _ _ _ (by decide) (by decide) (by decide) (by decide) ?_
  refine replaceAll_preserves _ _ _ _ (by decide) (by decide) (by decide) (by decide) ?_
  exact replaceAll_removes _ _ _ (by decide) (by decide) (by decide) (by decide)

theorem hasSub_addStory_ol (x : List Char) :
    hasSub "<ol>".data (addStoryClassesL x) = false := by
  unfold addStoryClassesL addStoryClasses7
  refine replaceAll_preserves _ _ _ _ (by decide) (by decide) (by decide) (by decide) ?_
  refine replaceAll_preserves _ _ _ _ (by decide) (by decide) (by decide) (by decide) ?_
  exact replaceAll_removes _ _ _ (by decide) (by decide) (by decide) (by decide)

theorem hasSub_addStory_bq (x : List Char) :
    hasSub "<blockquote>".data (addStoryClassesL x) = false := by
  unfold addStoryClassesL addStoryClasses7
  refine replaceAll_preserves _ _ _ _ (by decide) (by decide) (by decide) (by decide) ?_
  exact replaceAll_removes _ _ _ (by decide) (by decide) (by decide) (by decide)

theorem hasSub_addStory7_img (x : List Char)
    (hx : hasSub "<img ".data x = false) :
    hasSub "<img ".data (addStoryClasses7 x) = false := by
  unfold addStoryClasses7
  refine replaceAll_preserves _ _ _ _ (by decide) (by decide) (by decide) (by decide) ?_
  refine replaceAll_preserves _ _ _ _ (by decide) (by decide) (by decide) (by decide) ?_
  refine replaceAll_preserves _ _ _ _ (by decide) (by decide) (by decide) (by decide) ?_
  refine replaceAll_preserves _ _ _ _ (by decide) (by decide) (by decide) (by decide) ?_
  refine replaceAll_preserves _ _ _ _ (by decide) (by decide) (by decide) (by decide) ?_
  refine replaceAll_preserves _ _ _ _ (by decide) (by decide) (by decide) (by decide) ?_
  refine replaceAll_preserves _ _ _ _ (by decide) (by decide) (by decide) (by decide) ?_
  exact hx

theorem hasSub_addStory_img (x : List Char)
    (hx : hasSub "<img ".data x = false) :
    hasSub "<img ".data (addStoryClassesL x) = false := by
  unfold addStoryClassesL
  rw [replaceAll_id _ _ _ (by decide) (hasSub_addStory7_img x hx)]
  exact hasSub_addStory7_img x hx

/-- A string containing none of the eight patterns is a fixed point of the
class-injection pass. -/
theorem addStoryClassesL_fixed (y : List Char)
    (k1 : hasSub "<h1>".data y = false) (k2 : hasSub "<h2>".data y = false)
    (k3 : hasSub "<h3>".data y = false) (k4 : hasSub "<p>".data y = false)
    (k5 : hasSub "<ul>".data y = false) (k6 : hasSub "<ol>".data y = false)
    (k7 : hasSub "<blockquote>".data y = false)
    (k8 : hasSub "<img ".data y = false) :
    addStoryClassesL y = y := by
  unfold addStoryClassesL addStoryClasses7
  rw [replaceAll_id _ _ _ (by decide) k1, replaceAll_id _ _ _ (by decide) k2,
    replaceAll_id _ _ _ (by decide) k3, replaceAll_id _ _ _ (by decide) k4,
    replaceAll_id _ _ _ (by decide) k5, replaceAll_id _ _ _ (by decide) k6,
    replaceAll_id _ _ _ (by decide) k7, replaceAll_id _ _ _ (by decide) k8]

/-- Idempotence of the class-injection pass on inputs without an `<img `
tag (the substance of the amended C5). -/
theorem addStoryClassesL_idem (x : List Char)
    (hx : hasSub "<img ".data x = false) :
    addStoryClassesL (addStoryClassesL x) = addStoryClassesL x :=
  addStoryClassesL_fixed (addStoryClassesL x)
    (hasSub_addStory_h1 x) (hasSub_addStory_h2 x) (hasSub_addStory_h3 x)
    (hasSub_addStory_p x) (hasSub_addStory_ul x) (hasSub_addStory_ol x)
    (hasSub_addStory_bq x) (hasSub_addStory_img x hx)

theorem length_dropWhile_le (p : Char → Bool) (l : List Char) :
    (l.dropWhile p).length ≤ l.length := by
  induction l with
  | nil => simp
  | cons c r ih =>
    by_cases h : p c
    · rw [List.dropWhile_cons_of_pos h]
      exact Nat.le_trans ih (by simp)
    · rw [List.dropWhile_cons_of_neg h]

theorem flattenT_toksGo :
    ∀ (fuel : Nat) (s : List Char), s.length ≤ fuel →
      flattenT (toksGo fuel s) = s := by
  intro fuel
  induction fuel with
  | zero =>
    intro s hs
    rw [List.eq_nil_of_length_eq_zero (Nat.le_zero.mp hs)]
    rfl
  | succ fuel ih =>
    intro s hs
    cases s with
    | nil => rfl
    | cons c rest =>
      simp only [List.length_cons] at hs
      by_cases h : isWordChar c
      · simp only [toksGo, h, if_true, flattenT, tokChars]
        rw [ih _ (Nat.le_trans (length_dropWhile_le _ rest) (by omega))]
        simp [List.takeWhile_append_dropWhile]
      · simp only [toksGo, h, if_false, Bool.false_eq_true, flattenT, tokChars]
        rw [ih _ (by omega)]
        rfl

theorem flattenT_toks (s : List Char) : flattenT (toks s) = s :=
  flattenT_toksGo s.length s (Nat.le_refl _)

/-- Word-character class is invariant under a one-character match (exact or
case-folded). -/
theorem isWordChar_of_charMatches (ci : Bool) (a c : Char)
    (ha : isWordChar a = true) (h : charMatches ci a c = true) :
    isWordChar c = true := by
  cases ci with
  | false =>
    simp only [charMatches, if_neg (by simp : ¬ false = true), beq_iff_eq] at h
    rw [← h]; exact ha
  | true =>
    have h' : foldN a = foldN c := by simpa [charMatches] using h
    simp only [isWordChar, Bool.or_eq_true, Bool.and_eq_true,
      decide_eq_true_eq, beq_iff_eq] at ha ⊢
    unfold foldN at h'
    by_cases hA : 65 ≤ a.toNat ∧ a.toNat ≤ 90
    · by_cases hC : 65 ≤ c.toNat ∧ c.toNat ≤ 90
      · rw [if_pos hA, if_pos hC] at h'; omega
      · rw [if_pos hA, if_neg hC] at h'; omega
    · by_cases hC : 65 ≤ c.toNat ∧ c.toNat ≤ 90
      · rw [if_neg hA, if_pos hC] at h'; omega
      · rw [if_neg hA, if_neg hC] at h'; omega

theorem sameWord_cons (a b : Char) (p u : List Char) :
    sameWord (a :: p) (b :: u) = ((foldN a == foldN b) && sameWord p u) := rfl

theorem sameWord_length (p w : List Char) (h : sameWord p w = true) :
    p.length = w.length := by
  have : p.map foldN = w.map foldN := by simpa [sameWord] using h
  have := congrArg List.length this
  simpa using this

theorem sameWord_nil_left (u : List Char) (hu : u ≠ []) :
    sameWord [] u = false := by
  cases u with
  | nil => exact absurd rfl hu
  | cons b u' => rfl

theorem sameWord_nil_right (p : List Char) (hp : p ≠ []) :
    sameWord p [] = false := by
  cases p with
  | nil => exact absurd rfl hp
  | cons a p' => rfl

theorem allWord_takeWhile (l : List Char) :
    allWord (l.takeWhile isWordChar) = true := by
  induction l with
  | nil => rfl
  | cons c r ih =>
    by_cases h : isWordChar c
    · rw [List.takeWhile_cons_of_pos h]
      simp only [allWord, List.all_cons, Bool.and_eq_true]
      exact ⟨h, by simpa [allWord] using ih⟩
    · rw [List.takeWhile_cons_of_neg h]
      rfl

theorem wordEndOk_dropWhile (l : List Char) :
    wordEndOk (l.dropWhile isWordChar) = true := by
  induction l with
  | nil => rfl
  | cons c r ih =>
    by_cases h : isWordChar c
    · rw [List.dropWhile_cons_of_pos h]; exact ih
    · rw [List.dropWhile_cons_of_neg h]
      simp [wordEndOk, h]

/-- On a maximal word run `u` followed by a word boundary `v`, the
`\bp\b` match condition holds exactly when `p` and `u` are the same word
(case-insensitively). -/
theorem match_run_iff (p : List Char) :
    ∀ u v : List Char, allWord p = true → allWord u = true →
      wordEndOk v = true →
      (matchPre true p (u ++ v) && wordEndOk (List.drop p.length (u ++ v))) =
        sameWord p u := by
  induction p with
  | nil =>
    intro u v _ hu hv
    cases u with
    | nil => simpa [matchPre, sameWord] using hv
    | cons b u' =>
      simp only [matchPre, List.length_nil, List.drop_zero, Bool.true_and]
      rw [sameWord_nil_left (b :: u') (by simp)]
      simp only [List.cons_append, wordEndOk]
      have hb : isWordChar b = true := all_head _ b u' (by simpa [allWord] using hu)
      simp [hb]
  | cons a p' ih =>
    intro u v hp hu hv
    have ha : isWordChar a = true := all_head _ a p' (by simpa [allWord] using hp)
    have hp' : allWord p' = true := by
      simp only [allWord, List.all_cons, Bool.and_eq_true] at hp
      exact hp.2
    cases u with
    | nil =>
      rw [sameWord_nil_right (a :: p') (by simp)]
      simp only [List.nil_append]
      cases v with
      | nil => simp [matchPre]
      | cons d v' =>
        have hd : isWordChar d = false := by
          simpa [wordEndOk] using hv
        have : charMatches true a d = false := by
          by_contra hcon
          rw [Bool.not_eq_false] at hcon
          have := isWordChar_of_charMatches true a d ha hcon
          rw [this] at hd
          exact Bool.true_eq_false.mp hd
        simp [matchPre, this]
    | cons b u' =>
      have hu' : allWord u' = true := by
        simp only [allWord, List.all_cons, Bool.and_eq_true] at hu
        exact hu.2
      rw [sameWord_cons]
      by_cases hcm : charMatches true a b = true
      · have hfold : (foldN a == foldN b) = true := by
          simpa [charMatches] using hcm
        have step : matchPre true (a :: p') ((b :: u') ++ v) =
            matchPre true p' (u' ++ v) := by
          simp [matchPre, hcm]
        have hdrop : List.drop (a :: p').length ((b :: u') ++ v) =
            List.drop p'.length (u' ++ v) := by
          simp
        rw [step, hdrop, hfold, Bool.true_and]
        exact ih u' v hp' hu' hv
      · have hcmf : charMatches true a b = false := by simpa using hcm
        have hfold : (foldN a == foldN b) = false := by
          simpa [charMatches] using hcmf
        simp [matchPre, hcmf, hfold]

theorem scanGo_nil (ci : Bool) (p : List Char) (f : List Char → List Char)
    (fuel : Nat) (prevW : Bool) : scanGo ci p f fuel prevW [] = [] := by
  cases fuel <;> rfl

/-- With the previous character inside a word, the scanner copies the rest
of the word run verbatim (no `\b` can fire inside it). -/
theorem scanGo_run (ci : Bool) (p : List Char) (f : List Char → List Char) :
    ∀ (u : List Char), allWord u = true → ∀ (fuel : Nat) (v : List Char),
      (u ++ v).length ≤ fuel →
      scanGo ci p f fuel true (u ++ v) =
        u ++ scanGo ci p f (fuel - u.length) true v := by
  intro u
  induction u with
  | nil => intro _ fuel v _; simp
  | cons c u' ih =>
    intro hu fuel v hlen
    have hu' : allWord u' = true := by
      simp only [allWord, List.all_cons, Bool.and_eq_true] at hu
      exact hu.2
    have hc : isWordChar c = true := by
      simp only [allWord, List.all_cons, Bool.and_eq_true] at hu
      exact hu.1
    cases fuel with
    | zero => simp at hlen
    | succ g =>
      show scanGo ci p f (g + 1) true (c :: (u' ++ v)) = _
      simp only [scanGo, Bool.not_true, Bool.false_and, if_neg (by simp : ¬ (false = true))]
      rw [hc, ih hu' g v (by simp only [List.length_append, List.length_cons] at hlen ⊢; omega)]
      have harith : g + 1 - (u'.length + 1) = g - u'.length := by omega
      simp only [List.cons_append, List.length_cons, harith]

theorem toksGo_eq_of_le :
    ∀ (fuel : Nat) (s : List Char), s.length ≤ fuel → toksGo fuel s = toks s := by
  intro fuel
  induction fuel using Nat.strong_induction_on with
  | _ fuel ih =>
    intro s hs
    match fuel, s with
    | 0, s =>
      rw [List.eq_nil_of_length_eq_zero (Nat.le_zero.mp hs)]
      rfl
    | g + 1, [] => rfl
    | g + 1, c :: rest =>
      simp only [List.length_cons] at hs
      by_cases h : isWordChar c
      · show toksGo (g + 1) (c :: rest) = toksGo (rest.length + 1) (c :: rest)
        simp only [toksGo, h, if_true]
        have h1 : toksGo g (rest.dropWhile isWordChar) =
            toks (rest.dropWhile isWordChar) :=
          ih g (by omega) _ (Nat.le_trans (length_dropWhile_le _ _) (by omega))
        have h2 : toksGo rest.length (rest.dropWhile isWordChar) =
            toks (rest.dropWhile isWordChar) :=
          ih rest.length (by omega) _ (length_dropWhile_le _ _)
        rw [h1, h2]
      · show toksGo (g + 1) (c :: rest) = toksGo (rest.length + 1) (c :: rest)
        simp only [toksGo, h, if_false, Bool.false_eq_true]
        rw [ih g (by omega) _ (by omega), ih rest.length (by omega) _ (Nat.le_refl _)]

theorem toks_cons_sep (c : Char) (rest : List Char) (h : isWordChar c = false) :
    toks (c :: rest) = .sep c :: toks rest := by
  show toksGo (rest.length + 1) (c :: rest) = _
  simp only [toksGo, h, if_false, Bool.false_eq_true]
  rw [toksGo_eq_of_le rest.length rest (Nat.le_refl _)]

theorem toks_cons_word (c : Char) (rest : List Char) (h : isWordChar c = true) :
    toks (c :: rest) =
      .word (c :: rest.takeWhile isWordChar) :: toks (rest.dropWhile isWordChar) := by
  show toksGo (rest.length + 1) (c :: rest) = _
  simp only [toksGo, h, if_true]
  rw [toksGo_eq_of_le rest.length _ (length_dropWhile_le _ _)]

/-- Characterization of case-insensitive whole-word replacement: it maps
each maximal word run that equals the pattern (case-insensitively) through
the replacement closure and leaves every other token unchanged. -/
theorem scanGo_toks (p : List Char) (f : List Char → List Char)
    (hp : allWord p = true) (hpn : p ≠ []) :
    ∀ (fuel : Nat) (s : List Char), s.length ≤ fuel →
      scanGo true p f fuel false s = flattenT ((toks s).map (tokMapW p f)) := by
  intro fuel
  induction fuel using Nat.strong_induction_on with
  | _ fuel ih =>
    intro s hs
    cases s with
    | nil => rw [scanGo_nil]; rfl
    | cons c rest =>
      cases fuel with
      | zero => simp at hs
      | succ g =>
        simp only [List.length_cons] at hs
        by_cases hc : isWordChar c = true
        · -- `c` starts a maximal word run u; c :: rest = u ++ v
          have hrest : c :: rest =
              (c :: rest.takeWhile isWordChar) ++ rest.dropWhile isWordChar := by
            simp
          have huw : allWord (c :: rest.takeWhile isWordChar) = true := by
            simp only [allWord, List.all_cons, Bool.and_eq_true]
            exact ⟨hc, by simpa [allWord] using allWord_takeWhile rest⟩
          have hvend : wordEndOk (rest.dropWhile isWordChar) = true :=
            wordEndOk_dropWhile rest
          have hcond : (matchPre true p (c :: rest) &&
              wordEndOk (List.drop p.length (c :: rest))) =
              sameWord p (c :: rest.takeWhile isWordChar) := by
            conv_lhs => rw [hrest]
            exact match_run_iff p _ _ hp huw hvend
          have hsplit : rest.takeWhile isWordChar ++ rest.dropWhile isWordChar = rest := by
            simp
          have hlenrest : (rest.takeWhile isWordChar).length +
              (rest.dropWhile isWordChar).length = rest.length := by
            rw [← List.length_append, hsplit]
          by_cases hsw : sameWord p (c :: rest.takeWhile isWordChar) = true
          · -- the pattern matches this whole run
            have hplen : p.length = (c :: rest.takeWhile isWordChar).length :=
              sameWord_length _ _ hsw
            have htake : List.take p.length (c :: rest) =
                c :: rest.takeWhile isWordChar := by
              conv_lhs => rw [hrest, hplen]
              exact List.take_left _ _
            have hdrop : List.drop p.length (c :: rest) =
                rest.dropWhile isWordChar := by
              conv_lhs => rw [hrest, hplen]
              exact List.drop_left _ _
            have hcondt : (matchPre true p (c :: rest) &&
                wordEndOk (List.drop p.length (c :: rest))) = true := by
              rw [hcond]; exact hsw
            simp only [scanGo, Bool.not_false, Bool.true_and, Bool.and_assoc]
            rw [if_pos hcondt, htake, hdrop]
            rw [toks_cons_word c rest hc]
            simp only [List.map_cons, tokMapW, hsw, if_pos, flattenT, tokChars]
            congr 1
            cases hv : rest.dropWhile isWordChar with
            | nil => rw [scanGo_nil]; rfl
            | cons d v' =>
              have hd : isWordChar d = false := by
                rw [hv] at hvend
                simpa [wordEndOk] using hvend
              have hg : 1 ≤ g := by
                rw [hv] at hlenrest
                simp only [List.length_cons] at hlenrest
                omega
              obtain ⟨g', rfl⟩ : ∃ g', g = g' + 1 := ⟨g - 1, by omega⟩
              show scanGo true p f (g' + 1) true (d :: v') = _
              have hnm : (!true && (matchPre true p (d :: v') &&
                  wordEndOk (List.drop p.length (d :: v')))) = false := by
                simp
              simp only [scanGo, Bool.not_true, Bool.false_and, Bool.and_assoc,
                if_neg (by simp : ¬ (false = true))]
              rw [hd, toks_cons_sep d v' hd]
              have hlenv' : v'.length ≤ g' := by
                rw [hv] at hlenrest
                simp only [List.length_cons] at hlenrest
                omega
              rw [ih g' (by omega) v' hlenv']
              rfl
          · -- the pattern does not match this run: copy it verbatim
            have hcondf : (matchPre true p (c :: rest) &&
                wordEndOk (List.drop p.length (c :: rest))) = false := by
              rw [hcond]; simpa using hsw
            simp only [scanGo, Bool.not_false, Bool.true_and, Bool.and_assoc]
            rw [if_neg (by rw [hcondf]; simp), hc]
            have hrest2 : rest = rest.takeWhile isWordChar ++ rest.dropWhile isWordChar :=
              hsplit.symm
            conv_lhs => rw [hrest2]
            rw [scanGo_run true p f (rest.takeWhile isWordChar)
              (allWord_takeWhile rest) g (rest.dropWhile isWordChar)
              (by rw [← hrest2]; omega)]
            rw [toks_cons_word c rest hc]
            simp only [List.map_cons, tokMapW, hsw, if_neg, flattenT, tokChars]
            show c :: (rest.takeWhile isWordChar ++ _) =
              (c :: rest.takeWhile isWordChar) ++ _
            simp only [List.cons_append, List.append_cancel_left_eq]
            congr 1
            cases hv : rest.dropWhile isWordChar with
            | nil => rw [scanGo_nil]; rfl
            | cons d v' =>
              have hd : isWordChar d = false := by
                rw [hv] at hvend
                simpa [wordEndOk] using hvend
              have hge : 1 ≤ g - (rest.takeWhile isWordChar).length := by
                rw [hv] at hlenrest
                simp only [List.length_cons] at hlenrest
                omega
              obtain ⟨g2, hg2⟩ : ∃ g2, g - (rest.takeWhile isWordChar).length = g2 + 1 :=
                ⟨g - (rest.takeWhile isWordChar).length - 1, by omega⟩
              rw [hg2]
              have hlenv' : v'.length ≤ g2 := by
                rw [hv] at hlenrest
                simp only [List.length_cons] at hlenrest
                omega
              have hstep : scanGo true p f (g2 + 1) true (d :: v') =
                  flattenT (List.map (tokMapW p f) (toks (d :: v'))) := by
                simp only [scanGo, Bool.not_true, Bool.false_and,
                  if_neg (by simp : ¬ (false = true))]
                rw [hd, toks_cons_sep d v' hd]
                rw [ih g2 (by omega) v' hlenv']
                rfl
              rw [hstep]
        · -- `c` is a separator: the pattern (a word) cannot match here
          have hcf : isWordChar c = false := by simpa using hc
          have hnm : matchPre true p (c :: rest) = false := by
            cases p with
            | nil => exact absurd rfl hpn
            | cons a p' =>
              have ha : isWordChar a = true :=
                all_head _ a p' (by simpa [allWord] using hp)
              by_cases hcm : charMatches true a c = true
              · have := isWordChar_of_charMatches true a c ha hcm
                rw [this] at hcf
                exact absurd hcf (by simp)
              · simp [matchPre, (by simpa using hcm : charMatches true a c = false)]
          simp only [scanGo, Bool.not_false, Bool.true_and, Bool.and_assoc, hnm,
            Bool.false_and, if_neg (by simp : ¬ (false = true))]
          rw [hcf, toks_cons_sep c rest hcf, ih g (by omega) rest (by omega)]
          rfl

theorem goodToks_main :
    ∀ (fuel : Nat) (s : List Char), s.length ≤ fuel →
      goodToks (toks s) = true := by
  intro fuel
  induction fuel using Nat.strong_induction_on with
  | _ fuel ih =>
    intro s hs
    cases s with
    | nil => rfl
    | cons c rest =>
      cases fuel with
      | zero => simp at hs
      | succ g =>
        simp only [List.length_cons] at hs
        by_cases hc : isWordChar c = true
        · rw [toks_cons_word c rest hc]
          have hrec : goodToks (toks (rest.dropWhile isWordChar)) = true :=
            ih g (by omega) _ (Nat.le_trans (length_dropWhile_le _ _) (by omega))
          have hw : (!(c :: rest.takeWhile isWordChar).isEmpty &&
              allWord (c :: rest.takeWhile isWordChar)) = true := by
            simp only [List.isEmpty_cons, Bool.not_false, Bool.true_and,
              allWord, List.all_cons, Bool.and_eq_true]
            exact ⟨hc, by simpa [allWord] using allWord_takeWhile rest⟩
          cases hv : rest.dropWhile isWordChar with
          | nil =>
            rw [hv] at hrec
            show ((!(c :: rest.takeWhile isWordChar).isEmpty &&
              allWord (c :: rest.takeWhile isWordChar)) && goodToks (toks [])) = true
            simp only [hw, Bool.true_and]
            exact hrec
          | cons d v' =>
            have hd : isWordChar d = false := by
              have := wordEndOk_dropWhile rest
              rw [hv] at this
              simpa [wordEndOk] using this
            rw [hv] at hrec
            rw [toks_cons_sep d v' hd] at hrec ⊢
            show ((!(c :: rest.takeWhile isWordChar).isEmpty &&
              allWord (c :: rest.takeWhile isWordChar)) &&
              goodToks (.sep d :: toks v')) = true
            simp only [hw, Bool.true_and]
            exact hrec
        · have hcf : isWordChar c = false := by simpa using hc
          rw [toks_cons_sep c rest hcf]
          show (!isWordChar c && goodToks (toks rest)) = true
          rw [hcf, ih g (by omega) rest (by omega)]
          rfl

theorem toks_good (s : List Char) : goodToks (toks s) = true :=
  goodToks_main s.length s (Nat.le_refl _)

theorem goodToks_sep_inv (c : Char) (ts : List Tok)
    (h : goodToks (.sep c :: ts) = true) :
    isWordChar c = false ∧ goodToks ts = true := by
  have h' : (!isWordChar c && goodToks ts) = true := h
  simp only [Bool.and_eq_true, Bool.not_eq_true'] at h'
  exact h'

theorem goodToks_word_inv (w : List Char) (ts : List Tok)
    (h : goodToks (.word w :: ts) = true) :
    w ≠ [] ∧ allWord w = true ∧ goodToks ts = true ∧
      wordEndOk (flattenT ts) = true := by
  cases ts with
  | nil =>
    have h' : ((!w.isEmpty && allWord w) && true) = true := h
    simp only [Bool.and_true, Bool.and_eq_true, Bool.not_eq_true'] at h'
    refine ⟨?_, h'.2, rfl, rfl⟩
    cases w with
    | nil => simp at h'
    | cons a r => simp
  | cons t2 ts2 =>
    cases t2 with
    | word w3 =>
      have h' : ((!w.isEmpty && allWord w) && false) = true := h
      simp at h'
    | sep d =>
      have h' : ((!w.isEmpty && allWord w) && goodToks (.sep d :: ts2)) = true := h
      simp only [Bool.and_eq_true, Bool.not_eq_true'] at h'
      have hd := goodToks_sep_inv d ts2 (by
        simpa using h'.2)
      refine ⟨?_, h'.1.2, by simpa using h'.2, ?_⟩
      · cases w with
        | nil => simp at h'
        | cons a r => simp
      · show wordEndOk (d :: flattenT ts2) = true
        simp [wordEndOk, hd.1]

/-- The tokenizer `toks` inverts `flattenT` on well-shaped token lists. -/
theorem toks_flattenT : ∀ l : List Tok, goodToks l = true → toks (flattenT l) = l := by
  intro l
  induction l with
  | nil => intro _; rfl
  | cons t ts ih =>
    intro hg
    cases t with
    | sep c =>
      have h := goodToks_sep_inv c ts hg
      show toks (c :: flattenT ts) = _
      rw [toks_cons_sep c _ h.1, ih h.2]
    | word w =>
      obtain ⟨hwne, hwall, hts, hend⟩ := goodToks_word_inv w ts hg
      cases w with
      | nil => exact absurd rfl hwne
      | cons c w' =>
        have hc : isWordChar c = true := all_head _ c w' (by simpa [allWord] using hwall)
        have hw' : ∀ a ∈ w', isWordChar a := by
          intro a hm
          simp only [allWord, List.all_cons, Bool.and_eq_true, List.all_eq_true] at hwall
          exact hwall.2 a hm
        show toks (c :: (w' ++ flattenT ts)) = _
        rw [toks_cons_word c _ hc]
        rw [List.takeWhile_append_of_pos hw', List.dropWhile_append_of_pos hw']
        have hdropflat : (flattenT ts).dropWhile isWordChar = flattenT ts := by
          cases hft : flattenT ts with
          | nil => rfl
          | cons d r =>
            rw [hft] at hend
            simp only [wordEndOk, Bool.not_eq_true'] at hend
            rw [List.dropWhile_cons_of_neg (by simp [hend])]
        have htakeflat : (flattenT ts).takeWhile isWordChar = [] := by
          cases hft : flattenT ts with
          | nil => rfl
          | cons d r =>
            rw [hft] at hend
            simp only [wordEndOk, Bool.not_eq_true'] at hend
            rw [List.takeWhile_cons_of_neg (by simp [hend])]
        rw [htakeflat, hdropflat, List.append_nil, ih hts]

/-- The token-level replacement preserves the shape invariant provided the
replacement closure returns non-empty word runs. -/
theorem goodToks_map (p : List Char) (f : List Char → List Char)
    (hf : ∀ w, f w ≠ [] ∧ allWord (f w) = true) :
    ∀ l : List Tok, goodToks l = true →
      goodToks (l.map (tokMapW p f)) = true := by
  intro l
  induction l with
  | nil => intro _; rfl
  | cons t ts ih =>
    intro hg
    cases t with
    | sep c =>
      have h := goodToks_sep_inv c ts hg
      rw [List.map_cons]
      show (!isWordChar c && goodToks (ts.map (tokMapW p f))) = true
      simp [h.1, ih h.2]
    | word w =>
      have hw2good : ∀ w2, tokMapW p f (.word w) = .word w2 → w2 ≠ [] ∧ allWord w2 = true := by
        intro w2 he
        obtain ⟨hwne, hwall, _, _⟩ := goodToks_word_inv w ts hg
        simp only [tokMapW] at he
        by_cases hsw : sameWord p w = true
        · rw [if_pos hsw] at he
          cases he
          exact hf w
        · rw [if_neg hsw] at he
          cases he
          exact ⟨hwne, hwall⟩
      cases hmap : tokMapW p f (.word w) with
      | sep c2 =>
        exfalso
        simp only [tokMapW] at hmap
        split at hmap <;> exact absurd hmap (by simp)
      | word w2 =>
        obtain ⟨hw2ne, hw2all⟩ := hw2good w2 hmap
        have hw2 : (!w2.isEmpty && allWord w2) = true := by
          simp only [Bool.and_eq_true, Bool.not_eq_true']
          refine ⟨?_, hw2all⟩
          cases w2 with
          | nil => exact absurd rfl hw2ne
          | cons a r => simp
        rw [List.map_cons, hmap]
        cases ts with
        | nil =>
          show ((!w2.isEmpty && allWord w2) && true) = true
          simp [hw2]
        | cons t2 ts2 =>
          cases t2 with
          | word w3 =>
            exfalso
            have := (goodToks_word_inv w _ hg).2.2.1
            have h3 : ((!w3.isEmpty && allWord w3) && false) = true := by
              have hx : goodToks (Tok.word w :: Tok.word w3 :: ts2) = true := hg
              have : ((!w.isEmpty && allWord w) && false) = true := hx
              simpa using this
            simp at h3
          | sep d =>
            have hts : goodToks (Tok.sep d :: ts2) = true :=
              (goodToks_word_inv w _ hg).2.2.1
            have hrec := ih hts
            rw [List.map_cons] at hrec ⊢
            rw [show tokMapW p f (Tok.sep d) = Tok.sep d from rfl] at hrec ⊢
            show ((!w2.isEmpty && allWord w2) &&
              goodToks (Tok.sep d :: ts2.map (tokMapW p f))) = true
            simp only [Bool.and_eq_true] at hrec ⊢
            exact ⟨by simpa using hw2, by simpa using hrec⟩

theorem replaceWord_toks (p : List Char) (f : List Char → List Char)
    (hp : allWord p = true) (hpn : p ≠ []) (s : List Char) :
    replaceWord true p f s = flattenT ((toks s).map (tokMapW p f)) := by
  unfold replaceWord
  rw [if_neg (by simpa [List.isEmpty_iff] using hpn)]
  exact scanGo_toks p f hp hpn s.length s (Nat.le_refl _)

theorem toks_replaceWord (p : List Char) (f : List Char → List Char)
    (s : List Char) (hp : allWord p = true) (hpn : p ≠ [])
    (hf : ∀ w, f w ≠ [] ∧ allWord (f w) = true) :
    toks (replaceWord true p f s) = (toks s).map (tokMapW p f) := by
  rw [replaceWord_toks p f hp hpn s]
  exact toks_flattenT _ (goodToks_map p f hf _ (toks_good s))

theorem caseRep_good (t : List Char) (h1 : t ≠ []) (h2 : allWord t = true)
    (h3 : capitalizeJS t ≠ []) (h4 : allWord (capitalizeJS t) = true) :
    ∀ m, caseRep t m ≠ [] ∧ allWord (caseRep t m) = true := by
  intro m
  cases m with
  | nil => exact ⟨h1, h2⟩
  | cons c r =>
    simp only [caseRep]
    by_cases h : jsHeadUpper c = true
    · rw [if_pos h]; exact ⟨h3, h4⟩
    · rw [if_neg h]; exact ⟨h1, h2⟩

theorem hasWordCI_replaceWord_false (p : List Char) (f : List Char → List Char)
    (q s : List Char) (hp : allWord p = true) (hpn : p ≠ [])
    (hf : ∀ w, f w ≠ [] ∧ allWord (f w) = true)
    (hq : ∀ w, sameWord p w = true → sameWord q (f w) = false)
    (h : hasWordCI q s = false) :
    hasWordCI q (replaceWord true p f s) = false := by
  unfold hasWordCI at h ⊢
  rw [toks_replaceWord p f s hp hpn hf]
  rw [List.any_eq_false] at h ⊢
  intro t ht
  rw [List.mem_map] at ht
  obtain ⟨t0, ht0, rfl⟩ := ht
  cases t0 with
  | sep c => simp [tokMapW]
  | word w =>
    simp only [tokMapW]
    by_cases hsw : sameWord p w = true
    · rw [if_pos hsw]
      simp only [Bool.not_eq_true]
      exact hq w hsw
    · rw [if_neg hsw]
      have := h _ ht0
      simpa using this

theorem hasWordCI_replaceWord_self (p : List Char) (f : List Char → List Char)
    (s : List Char) (hp : allWord p = true) (hpn : p ≠ [])
    (hf : ∀ w, f w ≠ [] ∧ allWord (f w) = true)
    (hq : ∀ w, sameWord p w = true → sameWord p (f w) = false) :
    hasWordCI p (replaceWord true p f s) = false := by
  unfold hasWordCI
  rw [toks_replaceWord p f s hp hpn hf]
  rw [List.any_eq_false]
  intro t ht
  rw [List.mem_map] at ht
  obtain ⟨t0, _, rfl⟩ := ht
  cases t0 with
  | sep c => simp [tokMapW]
  | word w =>
    simp only [tokMapW]
    by_cases hsw : sameWord p w = true
    · rw [if_pos hsw]
      simp only [Bool.not_eq_true]
      exact hq w hsw
    · rw [if_neg hsw]
      simpa using hsw

theorem map_congr_fun {α β : Type} (f g : α → β) (h : ∀ a, f a = g a) :
    ∀ l : List α, l.map f = l.map g := by
  intro l
  induction l with
  | nil => rfl
  | cons a l ih => simp only [List.map_cons, h a, ih]

/-- A second whole-word replacement with the same pattern is absorbed when
its token-level effect fixes the first replacement's output tokens. -/
theorem replaceWord_absorb (p : List Char) (f g : List Char → List Char)
    (hp : allWord p = true) (hpn : p ≠ [])
    (hf : ∀ w, f w ≠ [] ∧ allWord (f w) = true)
    (hpoint : ∀ t, tokMapW p g (tokMapW p f t) = tokMapW p f t)
    (s : List Char) :
    replaceWord true p g (replaceWord true p f s) = replaceWord true p f s := by
  rw [replaceWord_toks p g hp hpn, toks_replaceWord p f s hp hpn hf,
    List.map_map, replaceWord_toks p f hp hpn]
  congr 1
  exact map_congr_fun _ _ (fun t => hpoint t) _

/-- Rules (5) and (6) share the pattern `his`; rule (6) fixes every token
rule (5) produces. -/
theorem tokMapW_absorb_his (k : PronounKey) (t : Tok) :
    tokMapW "his".data (caseRep (PRONOUNS k).possessive.data)
      (tokMapW "his".data (caseRep (PRONOUNS k).possessiveAdj.data) t) =
    tokMapW "his".data (caseRep (PRONOUNS k).possessiveAdj.data) t := by
  cases t with
  | sep c => cases k <;> rfl
  | word w =>
    by_cases hsw : sameWord "his".data w = true
    · cases w with
      | nil => exact absurd hsw (by decide)
      | cons c w' =>
        by_cases hu : jsHeadUpper c = true
        · cases k <;>
            (simp only [tokMapW, if_pos hsw, caseRep]
             rw [if_pos hu]
             decide)
        · cases k <;>
            (simp only [tokMapW, if_pos hsw, caseRep]
             rw [if_neg hu]
             decide)
    · cases k <;> simp only [tokMapW, if_neg hsw]

/-! ## Claim theorems -/

theorem matchPre_self_append (a x : List Char) :
    matchPre false a (a ++ x) = true := by
  induction a with
  | nil => rfl
  | cons c r ih => simp [matchPre, charMatches, ih]

/-- C1 counterexample: the claimed control flow (rewrite the raw markdown
first, then render) disagrees with the program on the concrete document
`"he_him_x"` with pronoun choice `they`: the handler's pipeline rewrites
the rendered HTML, so `he` and `him` become whole words only after
rendering and are rewritten, while the claimed order leaves them inside
the single word `he_him_x`. -/
theorem c1_counterexample :
    customizeStory id "he_him_x" "Sam" .he none .they ≠
      customizeStorySpecOrder id "he_him_x" "Sam" .he none .they ∧
    customizeStory id "he_him_x" "Sam" .he none .they =
      rewritePronouns (markdownToHTMLWith id "he_him_x") "Sam" "Sam" .they ∧
    customizeStory id "he_him_x" "Sam" .he none .they =
      "<p class=\"story-text\">they<em>them</em>x</p>" := by
  refine ⟨by decide, by decide, by decide⟩

/-- C1 (amended): in the customization pipeline the markdown is rendered
to HTML first (manual conversion, library parse, class injection), and the
pronoun rewrite — when a custom name is given, or the chosen family
differs from the document's original — is then applied to the rendered
HTML; the rewriter operates on rendered HTML, never on the raw markdown. -/
theorem c1_theorem (parse : String → String) (md originalName : String)
    (origPk : PronounKey) (customName : Option String) (pk : PronounKey) :
    customizeStory parse md originalName origPk customName pk =
      (if strTruthy customName then
        rewritePronouns (addStoryClasses (parse (markdownToHTMLManual md)))
          originalName (customName.getD "") pk
      else if pk ≠ origPk then
        rewritePronouns (addStoryClasses (parse (markdownToHTMLManual md)))
          originalName originalName pk
      else addStoryClasses (parse (markdownToHTMLManual md))) := rfl

/-- C2: the rewriter always matches the `he`-family forms: it coincides
with the generalized rewriter instantiated at the fixed reference family
`PRONOUNS he` for every input, and a text in `she`-family forms is left
unchanged even though instantiating the generalized rewriter at the
`she` family would change it — the reference family is a fixed choice,
not derived from the document. -/
theorem c2_theorem :
    (∀ (text o n : String) (k : PronounKey),
      rewritePronouns text o n k = rewriteGen (PRONOUNS .he) text o n k) ∧
    rewriteGen (PRONOUNS .she) "She smiled at her friend" "Zz" "Zz" .they ≠
      rewritePronouns "She smiled at her friend" "Zz" "Zz" .they ∧
    rewritePronouns "She smiled at her friend" "Zz" "Zz" .they =
      "She smiled at her friend" := by
  refine ⟨fun _ _ _ _ => rfl, by decide, by decide⟩

/-- C3: the rewriter is exactly the composition, in order, of the seven
whole-word replacements (exact-case name, lowercase name, subject, object,
possessive adjective, possessive, reflexive), each applied to the result
of the previous one; pronoun matches are case-insensitive with the
replacement capitalized exactly when the matched span's first character is
uppercase, as on the concrete sentence. -/
theorem c3_theorem :
    (∀ (t o n : List Char) (k : PronounKey),
      rewritePronounsL t o n k =
        pronounStepsL k (nameStep2 o n (nameStep1 o n t))) ∧
    rewritePronouns "He opened the door. he smiled." "Sam" "Sam" .she =
      "She opened the door. she smiled." ∧
    (∀ k : PronounKey,
      rewritePronouns "He" "Zq" "Zq" k =
        ⟨capitalizeJS (PRONOUNS k).subject.data⟩ ∧
      rewritePronouns "he" "Zq" "Zq" k = (PRONOUNS k).subject) := by
  refine ⟨fun _ _ _ _ => rfl, by decide, ?_⟩
  intro k
  cases k <;> exact ⟨by decide, by decide⟩

/-- C5 counterexample: the class-injection pass is not idempotent — on an
image tag, the second application matches the `<img ` of the first
application's output and inserts a duplicate `class` attribute. -/
theorem c5_counterexample :
    addStoryClasses (addStoryClasses "<img src=\"x\">") ≠
      addStoryClasses "<img src=\"x\">" ∧
    addStoryClasses "<img src=\"x\">" =
      "<img class=\"story-image\" src=\"x\">" ∧
    addStoryClasses (addStoryClasses "<img src=\"x\">") =
      "<img class=\"story-image\" class=\"story-image\" src=\"x\">" := by
  refine ⟨by decide, by decide, by decide⟩

/-- C5 (amended): the class-injection pass is idempotent on every HTML
string that contains no `<img ` tag — for the heading, paragraph, list and
blockquote replacements the classed output no longer contains the searched
tag text, so a second application changes nothing; image tags are the
exception that breaks idempotence. -/
theorem c5_theorem (x : String) (hx : hasSub "<img ".data x.data = false) :
    addStoryClasses (addStoryClasses x) = addStoryClasses x := by
  have h := addStoryClassesL_idem x.data hx
  show String.mk (addStoryClassesL (String.mk (addStoryClassesL x.data)).data) =
    String.mk (addStoryClassesL x.data)
  exact congrArg String.mk h

theorem c5_witness :
    hasSub "<img ".data ("<h1>T</h1>\n\n<p>hello</p>" : String).data = false ∧
    addStoryClasses (addStoryClasses "<h1>T</h1>\n\n<p>hello</p>") =
      addStoryClasses "<h1>T</h1>\n\n<p>hello</p>" :=
  ⟨by decide, c5_theorem "<h1>T</h1>\n\n<p>hello</p>" (by decide)⟩

/-- C4 counterexample: the unknown-key and unknown-pronoun tests are JS
truthiness tests on plain object literals, so `Object.prototype` property
names bypass them.  The unknown key `constructor` is not answered with the
404 `documentNotFound` the claim promises (the handler proceeds to the
source fetch and reports 503, or 500 once a source is available), and the
unrecognized pronoun identifier `toString` is not answered with the 400
`invalidPronounFamily` (it reaches the rewriter, which throws on an
uppercase pronoun match — 500 — or splices the string `undefined` into a
200 page). -/
theorem c4_counterexample :
    ("constructor" : String) ≠ "island" ∧
    lookupStory "constructor" = some none ∧
    handleStoryCustomization (fun s => .ok s) "constructor" none none none =
      .sourceUnavailable "Story content not available" ∧
    handleStoryCustomization (fun s => .ok s) "constructor" none none none ≠
      .documentNotFound "Story \"constructor\" not found" ∧
    handleStoryCustomization (fun s => .ok s) "constructor" none none
        (some "Hi.") = .internalError "Internal Server Error" ∧
    parsePronounKey "toString" = some none ∧
    handleStoryCustomization (fun s => .ok s) "island" none (some "toString")
        none ≠
      .invalidPronounFamily "Invalid pronoun \"toString\". Use: he, she, or they" ∧
    handleStoryCustomization (fun s => .ok s) "island" none (some "toString")
        (some "He smiled.") = .internalError "Internal Server Error" ∧
    handleStoryCustomization (fun s => .ok s) "island" none (some "toString")
        (some "so he smiled.") =
      .ok "<p class=\"story-text\">so undefined smiled.</p>"
        "✨ Using toString/undefined pronouns" := by
  decide

/-- C4 (corrected): the customize handler's error taxonomy under the actual
truthiness tests — an unknown document key that is not an `Object.prototype`
property name gets the 404 `documentNotFound`, and the 404 condition is
exactly that; an unrecognized pronoun identifier that is not an inherited
name gets the 400 `invalidPronounFamily` whose body lists `he, she, or
they`, and the 400 condition is exactly that; whenever both truthiness
tests pass, a failed upstream fetch gets the 503 `sourceUnavailable`; an
exception thrown by the library parse is caught into the generic 500
`internalError` with no detail of the underlying error; and on an
inherited story value the `TypeError` thrown while the rewriter builds its
replacement list is caught into the same generic 500. -/
theorem c4_theorem :
    (∀ (parse : String → Except String String) (cn cp fr : Option String)
        (key : String), lookupStory key = none →
      handleStoryCustomization parse key cn cp fr =
        .documentNotFound ("Story \"" ++ key ++ "\" not found")) ∧
    (∀ (key : String), lookupStory key = none ↔
      (key ≠ "island" ∧ protoProps.contains key = false)) ∧
    (∀ (parse : String → Except String String) (cn fr : Option String)
        (p : String), p ≠ "" → parsePronounKey p = none →
      handleStoryCustomization parse "island" cn (some p) fr =
        .invalidPronounFamily
          ("Invalid pronoun \"" ++ p ++ "\". Use: he, she, or they")) ∧
    (∀ (p : String), parsePronounKey p = none ↔
      (p ≠ "he" ∧ p ≠ "she" ∧ p ≠ "they" ∧ protoProps.contains p = false)) ∧
    (∀ (parse : String → Except String String) (cn cp : Option String)
        (key : String) (mv : Option StoryMeta) (k : Option PronounKey),
      lookupStory key = some mv → parsePronounKey (jsOr cp "he") = some k →
      handleStoryCustomization parse key cn cp none =
        .sourceUnavailable "Story content not available") ∧
    (∀ (parse : String → Except String String) (cn cp : Option String)
        (key : String) (mv : Option StoryMeta) (k : Option PronounKey)
        (md e : String),
      lookupStory key = some mv → parsePronounKey (jsOr cp "he") = some k →
      parse (markdownToHTMLManual md) = .error e →
      handleStoryCustomization parse key cn cp (some md) =
        .internalError "Internal Server Error") ∧
    (∀ (parse : String → Except String String) (cn cp : Option String)
        (key : String) (k : Option PronounKey) (md h : String),
      lookupStory key = some none → parsePronounKey (jsOr cp "he") = some k →
      parse (markdownToHTMLManual md) = .ok h →
      handleStoryCustomization parse key cn cp (some md) =
        .internalError "Internal Server Error") ∧
    ((∀ b, statusOf (.documentNotFound b) = 404) ∧
     (∀ b, statusOf (.invalidPronounFamily b) = 400) ∧
     (∀ b, statusOf (.sourceUnavailable b) = 503) ∧
     (∀ b, statusOf (.internalError b) = 500)) := by
  refine ⟨?_, ?_, ?_, ?_, ?_, ?_, ?_, fun _ => rfl, fun _ => rfl,
    fun _ => rfl, fun _ => rfl⟩
  · intro parse cn cp fr key hkey
    simp [handleStoryCustomization, hkey]
  · intro key
    unfold lookupStory
    by_cases h1 : key = "island"
    · simp [h1]
    · by_cases h2 : protoProps.contains key = true
      · simp [h1, h2]
      · have h2f : protoProps.contains key = false := by simpa using h2
        simp [h1, h2f]
  · intro parse cn fr p hne hp
    have hj : jsOr (some p) "he" = p := by
      show (if p = "" then "he" else p) = p
      rw [if_neg hne]
    simp [handleStoryCustomization,
      show lookupStory "island" = some (some islandMeta) from rfl, hj, hp]
  · intro p
    unfold parsePronounKey
    by_cases h1 : p = "he"
    · simp [h1]
    · by_cases h2 : p = "she"
      · simp [h1, h2]
      · by_cases h3 : p = "they"
        · simp [h1, h2, h3]
        · by_cases h4 : protoProps.contains p = true
          · simp [h1, h2, h3, h4]
          · have h4f : protoProps.contains p = false := by simpa using h4
            simp [h1, h2, h3, h4f]
  · intro parse cn cp key mv k hkey hk
    simp [handleStoryCustomization, hkey, hk]
  · intro parse cn cp key mv k md e hkey hk he
    simp [handleStoryCustomization, hkey, hk, markdownToHTMLE, he, Except.map]
  · intro parse cn cp key k md h hkey hk hpok
    simp [handleStoryCustomization, hkey, hk, markdownToHTMLE, hpok, Except.map]

theorem c4_witness :
    handleStoryCustomization (fun s => .ok s) "nope" none none none =
      .documentNotFound "Story \"nope\" not found" ∧
    handleStoryCustomization (fun s => .ok s) "island" none (some "xyz") none =
      .invalidPronounFamily "Invalid pronoun \"xyz\". Use: he, she, or they" ∧
    handleStoryCustomization (fun s => .ok s) "island" none (some "she") none =
      .sourceUnavailable "Story content not available" ∧
    handleStoryCustomization (fun _ => .error "boom") "island" none none
        (some "# T") = .internalError "Internal Server Error" ∧
    handleStoryCustomization (fun s => .ok s) "valueOf" none none
        (some "Hello.") = .internalError "Internal Server Error" := by
  refine ⟨?_, ?_, ?_, ?_, ?_⟩
  · exact (c4_theorem.1 (fun s => .ok s) none none none "nope" rfl).trans (by decide)
  · exact (c4_theorem.2.2.1 (fun s => .ok s) none none "xyz" (by decide) rfl).trans
      (by decide)
  · exact c4_theorem.2.2.2.2.1 (fun s => .ok s) none (some "she") "island"
      (some islandMeta) (some .she) rfl rfl
  · exact c4_theorem.2.2.2.2.2.1 (fun _ => .error "boom") none none "island"
      (some islandMeta) (some .he) "# T" "boom" rfl rfl rfl
  · exact c4_theorem.2.2.2.2.2.2.1 (fun s => .ok s) none none "valueOf"
      (some .he) "Hello." (markdownToHTMLManual "Hello.") rfl rfl rfl

/-- C6 counterexample: the banner can be non-empty although nothing was
customized away from the document's original values — requesting the
original name `Sam` with the original family `he` still produces a
"Customized for Sam" banner. -/
theorem c6_counterexample :
    bannerText islandMeta (some "Sam") .he ≠ "" ∧
    (some "Sam" : Option String).getD "" = islandMeta.originalName ∧
    PronounKey.he = islandMeta.originalPronoun ∧
    bannerText islandMeta (some "Sam") .he = "✨ Customized for Sam" := by
  refine ⟨by decide, by decide, by decide, by decide⟩

/-- C6 (amended): the banner is non-empty exactly when a (non-empty)
custom name was provided — even one equal to the original name — or the
chosen pronoun family differs from the document's original; its wording
distinguishes the name-and-pronoun, name-only and pronoun-only cases. -/
theorem c6_theorem :
    (∀ (meta : StoryMeta) (cn : Option String) (pk : PronounKey),
      bannerText meta cn pk ≠ "" ↔
        (strTruthy cn = true ∨ pk ≠ meta.originalPronoun)) ∧
    bannerText islandMeta (some "Alex") .she =
      "✨ Customized for Alex (she/her)" ∧
    bannerText islandMeta (some "Alex") .he = "✨ Customized for Alex" ∧
    bannerText islandMeta none .she = "✨ Using she/her pronouns" ∧
    bannerText islandMeta (some "Alex") .she ≠ bannerText islandMeta (some "Alex") .he ∧
    bannerText islandMeta (some "Alex") .he ≠ bannerText islandMeta none .she ∧
    bannerText islandMeta (some "Alex") .she ≠ bannerText islandMeta none .she ∧
    bannerText islandMeta none .he = "" := by
  refine ⟨?_, by decide, by decide, by decide, by decide, by decide, by decide,
    by decide⟩
  intro meta cn pk
  by_cases ht : strTruthy cn = true
  · by_cases hpk : pk = meta.originalPronoun
    · constructor
      · intro _; exact Or.inl ht
      · intro _
        show String.mk (bannerTextL meta cn pk) ≠ String.mk []
        unfold bannerTextL
        rw [ht, hpk]
        simp only [beq_self_eq_true, Bool.not_true, Bool.true_and, if_neg
          (by simp : ¬ (false = true)), if_pos rfl]
        intro hcon
        have h2 := congrArg String.data hcon
        rw [show (("" : String).data : List Char) = [] from rfl] at h2
        exact List.cons_ne_nil _ _ h2
    · constructor
      · intro _; exact Or.inl ht
      · intro _
        show String.mk (bannerTextL meta cn pk) ≠ String.mk []
        unfold bannerTextL
        rw [ht]
        rw [show (pk == meta.originalPronoun) = false from by
          simp [beq_eq_false_iff_ne, hpk]]
        simp only [Bool.not_false, Bool.true_and, if_pos rfl]
        intro hcon
        have h2 := congrArg String.data hcon
        rw [show (("" : String).data : List Char) = [] from rfl] at h2
        exact List.cons_ne_nil _ _ h2
  · have htf : strTruthy cn = false := by simpa using ht
    by_cases hpk : pk = meta.originalPronoun
    · constructor
      · intro hcon
        exfalso
        apply hcon
        show String.mk (bannerTextL meta cn pk) = String.mk []
        unfold bannerTextL
        rw [htf, hpk]
        simp
      · intro hor
        rcases hor with h1 | h2
        · rw [htf] at h1; exact absurd h1 (by simp)
        · exact absurd hpk h2
    · constructor
      · intro _; exact Or.inr hpk
      · intro _
        show String.mk (bannerTextL meta cn pk) ≠ String.mk []
        unfold bannerTextL
        rw [htf]
        rw [show (pk == meta.originalPronoun) = false from by
          simp [beq_eq_false_iff_ne, hpk]]
        simp only [Bool.false_and, Bool.not_false, if_neg
          (by simp : ¬ (false = true)), if_pos rfl]
        intro hcon
        have h2 := congrArg String.data hcon
        rw [show (("" : String).data : List Char) = [] from rfl] at h2
        exact List.cons_ne_nil _ _ h2

theorem matchPre_two_char_false (a b : Char) (tl : List Char) (c2 : Char)
    (rest : List Char) (h : (b == c2) = false) :
    matchPre false (a :: b :: tl) (a :: c2 :: rest) = false := by
  simp [matchPre, charMatches, h]

/-- C7: block classification checks the blockquote condition before the
list checks — every block whose trimmed text starts with `>` (in
particular one whose lines also carry list markers, like `> - item`) is
rendered as a blockquote with the fixed `story-callout` class, never as an
unordered or ordered list. -/
theorem c7_theorem (b : List Char)
    (h : matchPre false ">".data (jsTrim b) = true) :
    processBlock b = mkBlockquote (jsTrim b) ∧
    matchPre false "<blockquote class=\"story-callout\">".data
      (processBlock b) = true ∧
    matchPre false "<ul".data (processBlock b) = false ∧
    matchPre false "<ol".data (processBlock b) = false := by
  obtain ⟨r, hcr⟩ : ∃ r, jsTrim b = '>' :: r := by
    cases hj : jsTrim b with
    | nil => rw [hj] at h; exact absurd h (by decide)
    | cons c r =>
      rw [hj] at h
      have hc := matchPre_false_head ">".data c r (by decide) h
      have hc2 : '>' = c := by simpa using hc
      exact ⟨r, by rw [← hc2]⟩
  have hproc : processBlock b = mkBlockquote (jsTrim b) := by
    unfold processBlock
    rw [hcr]
    rw [if_neg (by simp), if_neg (by simp [matchPre, charMatches]),
      if_pos (by simp [matchPre, charMatches]), ← hcr]
  refine ⟨hproc, ?_, ?_, ?_⟩
  · rw [hproc]
    unfold mkBlockquote
    rw [List.append_assoc]
    exact matchPre_self_append _ _
  · rw [hproc]
    unfold mkBlockquote
    rw [show ("<blockquote class=\"story-callout\">".data : List Char) =
      '<' :: 'b' :: "lockquote class=\"story-callout\">".data from by decide]
    rw [List.append_assoc, List.cons_append, List.cons_append]
    rw [show ("<ul".data : List Char) = '<' :: 'u' :: "l".data from by decide]
    exact matchPre_two_char_false '<' 'u' _ 'b' _ (by decide)
  · rw [hproc]
    unfold mkBlockquote
    rw [show ("<blockquote class=\"story-callout\">".data : List Char) =
      '<' :: 'b' :: "lockquote class=\"story-callout\">".data from by decide]
    rw [List.append_assoc, List.cons_append, List.cons_append]
    rw [show ("<ol".data : List Char) = '<' :: 'o' :: "l".data from by decide]
    exact matchPre_two_char_false '<' 'o' _ 'b' _ (by decide)

theorem c7_witness :
    matchPre false ">".data (jsTrim "> - item".data) = true ∧
    processBlock "> - item".data = mkBlockquote (jsTrim "> - item".data) ∧
    matchPre false "<blockquote class=\"story-callout\">".data
      (processBlock "> - item".data) = true ∧
    matchPre false "<ul".data (processBlock "> - item".data) = false ∧
    matchPre false "<ol".data (processBlock "> - item".data) = false := by
  have h := c7_theorem "> - item".data (by decide)
  exact ⟨by decide, h.1, h.2.1, h.2.2.1, h.2.2.2⟩

/-- C8 counterexample: a block whose second line does not begin with `>`
is still rendered as a blockquote — only the block's first character is
tested, not every line. -/
theorem c8_counterexample :
    ¬ (∀ line ∈ splitOnNl "> a\nb".data, matchPre false ">".data line = true) ∧
    processBlock "> a\nb".data =
      "<blockquote class=\"story-callout\">a<br>b</blockquote>".data := by
  refine ⟨by decide, by decide⟩

/-- C8 (amended): a trimmed, non-empty, non-heading block is rendered as a
blockquote exactly when its first character is `>` (only the first line is
examined); the renderer then deletes each line-leading `>` together with
the whitespace that follows it (greedily, possibly across line breaks),
replaces the remaining newlines by `<br>`, and wraps the result in a
blockquote element with the fixed `story-callout` class. -/
theorem c8_theorem (b : List Char) (hne : jsTrim b ≠ [])
    (hh : matchPre false "<h".data (jsTrim b) = false) :
    (matchPre false "<blockquote class=\"story-callout\">".data
        (processBlock b) = true ↔
      matchPre false ">".data (jsTrim b) = true) ∧
    (matchPre false ">".data (jsTrim b) = true →
      processBlock b = "<blockquote class=\"story-callout\">".data ++
        nlToBr (stripGt (jsTrim b)) ++ "</blockquote>".data) := by
  have hbq : matchPre false ">".data (jsTrim b) = true →
      processBlock b = "<blockquote class=\"story-callout\">".data ++
        nlToBr (stripGt (jsTrim b)) ++ "</blockquote>".data := by
    intro hgt
    obtain ⟨r, hcr⟩ : ∃ r, jsTrim b = '>' :: r := by
      cases hj : jsTrim b with
      | nil => rw [hj] at hgt; exact absurd hgt (by decide)
      | cons c r =>
        rw [hj] at hgt
        have hc := matchPre_false_head ">".data c r (by decide) hgt
        have hc2 : '>' = c := by simpa using hc
        exact ⟨r, by rw [← hc2]⟩
    unfold processBlock
    rw [hcr]
    rw [if_neg (by simp), if_neg (by simp [matchPre, charMatches]),
      if_pos (by simp [matchPre, charMatches]), ← hcr]
    rfl
  have hmpr : matchPre false ">".data (jsTrim b) = true →
      matchPre false "<blockquote class=\"story-callout\">".data
        (processBlock b) = true := by
    intro hgt
    rw [hbq hgt, List.append_assoc]
    exact matchPre_self_append _ _
  refine ⟨⟨?_, hmpr⟩, hbq⟩
  intro hout
  by_contra hgt
  have hgtf : matchPre false ">".data (jsTrim b) = false := by simpa using hgt
  -- without a leading `>` the block becomes a list or a paragraph, whose
  -- output cannot start with the blockquote element
  have hshape : processBlock b =
      (if ulTest (jsTrim b) then "<ul class=\"bullet-list\">".data ++
          listItems ulItem (jsTrim b) ++ "</ul>".data
       else if olTest (jsTrim b) then "<ol class=\"numbered-list\">".data ++
          listItems olItem (jsTrim b) ++ "</ol>".data
       else "<p class=\"story-text\">".data ++ nlToBr (jsTrim b) ++ "</p>".data) := by
    unfold processBlock
    rw [if_neg (by simp [List.isEmpty_iff, hne]), if_neg (by simp [hh]),
      if_neg (by simp [hgtf])]
  rw [hshape] at hout
  by_cases hul : ulTest (jsTrim b) = true
  · rw [if_pos hul] at hout
    rw [show ("<ul class=\"bullet-list\">".data : List Char) =
      '<' :: 'u' :: "l class=\"bullet-list\">".data from by decide] at hout
    rw [show ("<blockquote class=\"story-callout\">".data : List Char) =
      '<' :: 'b' :: "lockquote class=\"story-callout\">".data from by decide,
      List.append_assoc, List.cons_append, List.cons_append] at hout
    rw [matchPre_two_char_false '<' 'b' _ 'u' _ (by decide)] at hout
    exact absurd hout (by simp)
  · rw [if_neg hul] at hout
    by_cases hol : olTest (jsTrim b) = true
    · rw [if_pos hol] at hout
      rw [show ("<ol class=\"numbered-list\">".data : List Char) =
        '<' :: 'o' :: "l class=\"numbered-list\">".data from by decide] at hout
      rw [show ("<blockquote class=\"story-callout\">".data : List Char) =
        '<' :: 'b' :: "lockquote class=\"story-callout\">".data from by decide,
        List.append_assoc, List.cons_append, List.cons_append] at hout
      rw [matchPre_two_char_false '<' 'b' _ 'o' _ (by decide)] at hout
      exact absurd hout (by simp)
    · rw [if_neg hol] at hout
      rw [show ("<p class=\"story-text\">".data : List Char) =
        '<' :: 'p' :: " class=\"story-text\">".data from by decide] at hout
      rw [show ("<blockquote class=\"story-callout\">".data : List Char) =
        '<' :: 'b' :: "lockquote class=\"story-callout\">".data from by decide,
        List.append_assoc, List.cons_append, List.cons_append] at hout
      rw [matchPre_two_char_false '<' 'b' _ 'p' _ (by decide)] at hout
      exact absurd hout (by simp)

theorem c8_witness :
    jsTrim "> hi\nthere".data ≠ [] ∧
    matchPre false "<h".data (jsTrim "> hi\nthere".data) = false ∧
    (matchPre false "<blockquote class=\"story-callout\">".data
        (processBlock "> hi\nthere".data) = true ↔
      matchPre false ">".data (jsTrim "> hi\nthere".data) = true) ∧
    processBlock "> hi\nthere".data =
      "<blockquote class=\"story-callout\">".data ++
        nlToBr (stripGt (jsTrim "> hi\nthere".data)) ++ "</blockquote>".data := by
  have h := c8_theorem "> hi\nthere".data (by decide) (by decide)
  exact ⟨by decide, by decide, h.1, h.2 (by decide)⟩

theorem caseRep_notWord (q t : List Char) (h1 : sameWord q t = false)
    (h2 : sameWord q (capitalizeJS t) = false) :
    ∀ w, sameWord q (caseRep t w) = false := by
  intro w
  cases w with
  | nil => exact h1
  | cons c r =>
    simp only [caseRep]
    by_cases h : jsHeadUpper c = true
    · rw [if_pos h]; exact h2
    · rw [if_neg h]; exact h1

/-- C9: word-boundary anchoring of the subject rule — the case-insensitive
whole-word replacement of `he` acts tokenwise on maximal word runs, so a
word other than `he`/`He` (such as `the`, `here`, or `she`, in any casing)
is never altered and no partial-word match fires inside a larger word. -/
theorem c9_theorem :
    (∀ (k : PronounKey) (s : List Char),
      toks (stepSubject k s) =
        (toks s).map (tokMapW "he".data (caseRep (PRONOUNS k).subject.data))) ∧
    (∀ k : PronounKey,
      tokMapW "he".data (caseRep (PRONOUNS k).subject.data)
          (.word "the".data) = .word "the".data ∧
      tokMapW "he".data (caseRep (PRONOUNS k).subject.data)
          (.word "The".data) = .word "The".data ∧
      tokMapW "he".data (caseRep (PRONOUNS k).subject.data)
          (.word "here".data) = .word "here".data ∧
      tokMapW "he".data (caseRep (PRONOUNS k).subject.data)
          (.word "Here".data) = .word "Here".data ∧
      tokMapW "he".data (caseRep (PRONOUNS k).subject.data)
          (.word "she".data) = .word "she".data ∧
      tokMapW "he".data (caseRep (PRONOUNS k).subject.data)
          (.word "She".data) = .word "She".data) ∧
    (∀ k : PronounKey,
      stepSubject k "the here she The Here She".data =
        "the here she The Here She".data) := by
  refine ⟨?_, ?_, ?_⟩
  · intro k s
    cases k <;>
      exact toks_replaceWord _ _ s (by decide) (by decide)
        (caseRep_good _ (by decide) (by decide) (by decide) (by decide))
  · intro k
    cases k <;>
      exact ⟨by decide, by decide, by decide, by decide, by decide, by decide⟩
  · intro k
    cases k <;> decide

/-- C10: because the `he` family reuses `his` for both possessive forms,
rule (6) is inert after rule (5): applying the possessive replacement to
the output of the possessive-adjective replacement changes nothing, every
whole-word `his` (any casing) is mapped by rule (5) to the target family's
possessive-adjective form, no whole-word `his` site survives rule (5) for
the families whose possessive form is distinct, and the distinct
possessive forms `hers` and `theirs` are never introduced by the pronoun
stages into a text that did not already contain them. -/
theorem c10_theorem :
    (∀ (k : PronounKey) (s : List Char),
      stepPossessive k (stepPossAdj k s) = stepPossAdj k s) ∧
    (∀ (k : PronounKey) (s : List Char),
      toks (stepPossAdj k s) =
        (toks s).map
          (tokMapW "his".data (caseRep (PRONOUNS k).possessiveAdj.data))) ∧
    (∀ k : PronounKey,
      tokMapW "his".data (caseRep (PRONOUNS k).possessiveAdj.data)
          (.word "his".data) = .word (PRONOUNS k).possessiveAdj.data ∧
      tokMapW "his".data (caseRep (PRONOUNS k).possessiveAdj.data)
          (.word "His".data) =
        .word (capitalizeJS (PRONOUNS k).possessiveAdj.data)) ∧
    (∀ s : List Char,
      hasWordCI "his".data (stepPossAdj .she s) = false ∧
      hasWordCI "his".data (stepPossAdj .they s) = false) ∧
    (∀ s : List Char, hasWordCI "hers".data s = false →
      hasWordCI "hers".data (pronounStepsL .she s) = false) ∧
    (∀ s : List Char, hasWordCI "theirs".data s = false →
      hasWordCI "theirs".data (pronounStepsL .they s) = false) := by
  refine ⟨?_, ?_, ?_, ?_, ?_, ?_⟩
  case refine_4 =>
    intro s
    constructor <;>
      (unfold stepPossAdj
       exact hasWordCI_replaceWord_self _ _ s (by decide) (by decide)
        (caseRep_good _ (by decide) (by decide) (by decide) (by decide))
        (fun w _ => caseRep_notWord _ _ (by decide) (by decide) w))
  · intro k s
    cases k <;>
      exact replaceWord_absorb "his".data _ _ (by decide) (by decide)
        (caseRep_good _ (by decide) (by decide) (by decide) (by decide))
        (tokMapW_absorb_his _) s
  · intro k s
    cases k <;>
      exact toks_replaceWord _ _ s (by decide) (by decide)
        (caseRep_good _ (by decide) (by decide) (by decide) (by decide))
  · intro k
    cases k <;> exact ⟨by decide, by decide⟩
  · intro s hs
    have habs : stepPossessive PronounKey.she
        (stepPossAdj .she (stepObject .she (stepSubject .she s))) =
        stepPossAdj .she (stepObject .she (stepSubject .she s)) :=
      replaceWord_absorb "his".data _ _ (by decide) (by decide)
        (caseRep_good _ (by decide) (by decide) (by decide) (by decide))
        (tokMapW_absorb_his _) _
    show hasWordCI "hers".data (stepReflexive .she (stepPossessive .she
      (stepPossAdj .she (stepObject .she (stepSubject .she s))))) = false
    rw [habs]
    unfold stepReflexive stepPossAdj stepObject stepSubject
    refine hasWordCI_replaceWord_false _ _ _ _ (by decide) (by decide)
      (caseRep_good _ (by decide) (by decide) (by decide) (by decide))
      (fun w _ => caseRep_notWord _ _ (by decide) (by decide) w) ?_
    refine hasWordCI_replaceWord_false _ _ _ _ (by decide) (by decide)
      (caseRep_good _ (by decide) (by decide) (by decide) (by decide))
      (fun w _ => caseRep_notWord _ _ (by decide) (by decide) w) ?_
    refine hasWordCI_replaceWord_false _ _ _ _ (by decide) (by decide)
      (caseRep_good _ (by decide) (by decide) (by decide) (by decide))
      (fun w _ => caseRep_notWord _ _ (by decide) (by decide) w) ?_
    refine hasWordCI_replaceWord_false _ _ _ _ (by decide) (by decide)
      (caseRep_good _ (by decide) (by decide) (by decide) (by decide))
      (fun w _ => caseRep_notWord _ _ (by decide) (by decide) w) ?_
    exact hs
  · intro s hs
    have habs : stepPossessive PronounKey.they
        (stepPossAdj .they (stepObject .they (stepSubject .they s))) =
        stepPossAdj .they (stepObject .they (stepSubject .they s)) :=
      replaceWord_absorb "his".data _ _ (by decide) (by decide)
        (caseRep_good _ (by decide) (by decide) (by decide) (by decide))
        (tokMapW_absorb_his _) _
    show hasWordCI "theirs".data (stepReflexive .they (stepPossessive .they
      (stepPossAdj .they (stepObject .they (stepSubject .they s))))) = false
    rw [habs]
    unfold stepReflexive stepPossAdj stepObject stepSubject
    refine hasWordCI_replaceWord_false _ _ _ _ (by decide) (by decide)
      (caseRep_good _ (by decide) (by decide) (by decide) (by decide))
      (fun w _ => caseRep_notWord _ _ (by decide) (by decide) w) ?_
    refine hasWordCI_replaceWord_false _ _ _ _ (by decide) (by decide)
      (caseRep_good _ (by decide) (by decide) (by decide) (by decide))
      (fun w _ => caseRep_notWord _ _ (by decide) (by decide) w) ?_
    refine hasWordCI_replaceWord_false _ _ _ _ (by decide) (by decide)
      (caseRep_good _ (by decide) (by decide) (by decide) (by decide))
      (fun w _ => caseRep_notWord _ _ (by decide) (by decide) w) ?_
    refine hasWordCI_replaceWord_false _ _ _ _ (by decide) (by decide)
      (caseRep_good _ (by decide) (by decide) (by decide) (by decide))
      (fun w _ => caseRep_notWord _ _ (by decide) (by decide) w) ?_
    exact hs

theorem c10_witness :
    hasWordCI "hers".data "He took his book".data = false ∧
    hasWordCI "hers".data (pronounStepsL .she "He took his book".data) = false ∧
    hasWordCI "theirs".data "He took his book".data = false ∧
    hasWordCI "theirs".data
      (pronounStepsL .they "He took his book".data) = false :=
  ⟨by decide, c10_theorem.2.2.2.2.1 "He took his book".data (by decide),
    by decide, c10_theorem.2.2.2.2.2 "He took his book".data (by decide)⟩
